import Mathlib

/-!
XOR-linked list (`xlinked_list<T>`): a shallow embedding of `src/xlinked_list.h`.

* Addresses (`xll_node *`, `ptr_int`) are natural numbers below `WORD = 2 ^ 64`; the
  null pointer is `0`.  Bitwise xor of two words is again a word, so the link
  arithmetic needs no reduction; the `size_t` counter `num_nodes` is reduced
  modulo `WORD` explicitly.
* The free store is a partial map from addresses to nodes.  `new` is modelled by
  passing the address the allocator hands out as an argument; `delete` removes the
  cell and appends the address to the ghost log `freed`.
* Every member function returns a `Status` together with the state it leaves
  behind.  `Status.threw` is a `std::runtime_error` raised by `THROW_RTE`;
  `Status.fault` is undefined behaviour (an access through an address that holds
  no live node, or through the null `data` pointer of a sentinel).
* Loops take a fuel argument; running out of fuel is `none`.
* C++ references are never null, so the `this == NULL` / `&other == NULL` tests of
  `operator==` have no counterpart; the message text of an exception is kept only up
  to its kind (`Err`).
-/

namespace XLinkedList

/-- Number of values of `ptr_int` / `size_t` (`__WORDSIZE == 64`). -/
def WORD : Nat := 2 ^ 64

/-- The three kinds of message passed to `THROW_RTE`. -/
inductive Err where
  | null_ptr
  | corrupted
  | empty
  deriving DecidableEq

/-- Outcome of a member function. -/
inductive Status (α : Type) where
  | ok (v : α)
  | threw (e : Err)
  | fault
  deriving DecidableEq

/-- The struct `xll_node`: the xor-combined link and the owned payload
(`none` is the `NULL` data pointer of a sentinel). -/
structure xll_node (T : Type) where
  ptr : Nat
  data : Option T
  deriving DecidableEq

/-- The free store together with the three private members of one
`xlinked_list` object. -/
structure State (T : Type) where
  cell : Nat → Option (xll_node T)
  freed : List Nat
  head : Nat
  tail : Nat
  num_nodes : Nat

variable {T : Type}

/-- Overwrite (or create) the node stored at address `a`. -/
def State.store (s : State T) (a : Nat) (n : xll_node T) : State T :=
  { s with cell := fun b => if b = a then some n else s.cell b }

/-- The effect of `delete` on a live node at `a`. -/
def State.release (s : State T) (a : Nat) : State T :=
  { s with cell := fun b => if b = a then none else s.cell b, freed := s.freed ++ [a] }

/-- The default constructor; `h` and `t` are the addresses returned by the two
`new xll_node()` calls. -/
def ctor (h t : Nat) : State T :=
  let s0 : State T := { cell := fun _ => none, freed := [], head := 0, tail := 0, num_nodes := 0 }
  let s1 : State T := { s0.store h { ptr := 0, data := none } with head := h }
  let s2 : State T := { s1.store t { ptr := 0, data := none } with tail := t }
  let s3 : State T := s2.store s2.head { ptr := s2.tail, data := none }
  s3.store s3.tail { ptr := s3.head, data := none }

/-- The member `size()`. -/
def size (s : State T) : Nat := s.num_nodes

/-- The member `push_front(item)`; `a` is the address returned by `new xll_node(0, item)`. -/
def push_front (a : Nat) (item : T) (s : State T) : Status Unit × State T :=
  if s.head = 0 then (.threw .null_ptr, s) else
  match s.cell s.head with
  | none => (.fault, s)
  | some hd =>
    if hd.ptr = 0 then (.threw .corrupted, s) else
    let s1 := s.store a { ptr := 0, data := some item }
    match s1.cell s1.head with
    | none => (.fault, s1)
    | some hd1 =>
      let node_1 := hd1.ptr
      match s1.cell node_1 with
      | none => (.fault, s1)
      | some n1 =>
        let node_2 := n1.ptr ^^^ s1.head
        let s2 := s1.store node_1 { n1 with ptr := a ^^^ node_2 }
        match s2.cell a with
        | none => (.fault, s2)
        | some nn =>
          let s3 := s2.store a { nn with ptr := s2.head ^^^ node_1 }
          match s3.cell s3.head with
          | none => (.fault, s3)
          | some hd3 =>
            let s4 := s3.store s3.head { hd3 with ptr := 0 ^^^ a }
            (.ok (), { s4 with num_nodes := (s4.num_nodes + 1) % WORD })

/-- The member `push_back(item)`; `a` is the address returned by `new xll_node(0, item)`. -/
def push_back (a : Nat) (item : T) (s : State T) : Status Unit × State T :=
  if s.tail = 0 then (.threw .null_ptr, s) else
  match s.cell s.tail with
  | none => (.fault, s)
  | some tl =>
    if tl.ptr = 0 then (.threw .corrupted, s) else
    let s1 := s.store a { ptr := 0, data := some item }
    match s1.cell s1.tail with
    | none => (.fault, s1)
    | some tl1 =>
      let node_1 := tl1.ptr
      match s1.cell node_1 with
      | none => (.fault, s1)
      | some n1 =>
        let node_2 := n1.ptr ^^^ s1.tail
        let s2 := s1.store node_1 { n1 with ptr := a ^^^ node_2 }
        match s2.cell a with
        | none => (.fault, s2)
        | some nn =>
          let s3 := s2.store a { nn with ptr := s2.tail ^^^ node_1 }
          match s3.cell s3.tail with
          | none => (.fault, s3)
          | some tl3 =>
            let s4 := s3.store s3.tail { tl3 with ptr := 0 ^^^ a }
            (.ok (), { s4 with num_nodes := (s4.num_nodes + 1) % WORD })

/-- The member `pop_front()`. -/
def pop_front (s : State T) : Status Unit × State T :=
  if s.head = 0 then (.threw .null_ptr, s) else
  match s.cell s.head with
  | none => (.fault, s)
  | some hd =>
    if hd.ptr = 0 then (.threw .corrupted, s) else
    let node_1 := hd.ptr
    match s.cell node_1 with
    | none => (.fault, s)
    | some n1 =>
      let node_2 := n1.ptr ^^^ s.head
      match (if node_2 = 0 then some 0
             else (s.cell node_2).map fun n2 => n2.ptr ^^^ node_1) with
      | none => (.fault, s)
      | some node_3 =>
        if node_1 = s.tail then (.threw .empty, s) else
        let s1 := s.store s.head { hd with ptr := node_2 }
        match (if node_2 = 0 then some s1
               else (s1.cell node_2).map fun n2 =>
                 s1.store node_2 { n2 with ptr := s1.head ^^^ node_3 }) with
        | none => (.fault, s1)
        | some s2 =>
          match s2.cell node_1 with
          | none => (.fault, s2)
          | some _ =>
            (.ok (), { s2.release node_1 with num_nodes := (s2.num_nodes + WORD - 1) % WORD })

/-- The member `pop_back()`. -/
def pop_back (s : State T) : Status Unit × State T :=
  if s.tail = 0 then (.threw .null_ptr, s) else
  match s.cell s.tail with
  | none => (.fault, s)
  | some tl =>
    if tl.ptr = 0 then (.threw .corrupted, s) else
    let node_1 := tl.ptr
    match s.cell node_1 with
    | none => (.fault, s)
    | some n1 =>
      let node_2 := n1.ptr ^^^ s.tail
      match (if node_2 = 0 then some 0
             else (s.cell node_2).map fun n2 => n2.ptr ^^^ node_1) with
      | none => (.fault, s)
      | some node_3 =>
        if node_1 = s.head then (.threw .empty, s) else
        let s1 := s.store s.tail { tl with ptr := node_2 }
        match (if node_2 = 0 then some s1
               else (s1.cell node_2).map fun n2 =>
                 s1.store node_2 { n2 with ptr := s1.tail ^^^ node_3 }) with
        | none => (.fault, s1)
        | some s2 =>
          match s2.cell node_1 with
          | none => (.fault, s2)
          | some _ =>
            (.ok (), { s2.release node_1 with num_nodes := (s2.num_nodes + WORD - 1) % WORD })

/-- The member `front()` (both overloads read the same cell). -/
def front (s : State T) : Status T × State T :=
  if s.head = 0 then (.threw .null_ptr, s) else
  match s.cell s.head with
  | none => (.fault, s)
  | some hd =>
    if hd.ptr = 0 then (.threw .corrupted, s) else
    let node_1 := hd.ptr
    if node_1 = s.tail then (.threw .empty, s) else
    match s.cell node_1 with
    | none => (.fault, s)
    | some n1 =>
      match n1.data with
      | none => (.fault, s)
      | some v => (.ok v, s)

/-- The member `back()` (both overloads read the same cell). -/
def back (s : State T) : Status T × State T :=
  if s.tail = 0 then (.threw .null_ptr, s) else
  match s.cell s.tail with
  | none => (.fault, s)
  | some tl =>
    if tl.ptr = 0 then (.threw .corrupted, s) else
    let node_1 := tl.ptr
    if node_1 = s.head then (.threw .empty, s) else
    match s.cell node_1 with
    | none => (.fault, s)
    | some n1 =>
      match n1.data with
      | none => (.fault, s)
      | some v => (.ok v, s)

/-- The member `reverse()`. -/
def reverse (s : State T) : State T :=
  let tmp := s.head
  let s1 : State T := { s with head := s.tail }
  { s1 with tail := tmp }

/-- The loop of `clear()`: `while(cur != tail){ delete cur; prev = cur; cur = cur->ptr; }`. -/
def clear_loop : Nat → State T → Nat → Option (Status Unit × State T)
  | 0, _, _ => none
  | fuel + 1, s, cur =>
    if cur = s.tail then some (.ok (), s) else
    match s.cell cur with
    | none => some (.fault, s)
    | some _ =>
      let s1 := s.release cur
      match s1.cell cur with
      | none => some (.fault, s1)
      | some n => clear_loop fuel s1 n.ptr

/-- The member `clear()`. -/
def clear (fuel : Nat) (s : State T) : Option (Status Unit × State T) :=
  if s.head = 0 then some (.threw .null_ptr, s) else
  if s.tail = 0 then some (.threw .null_ptr, s) else
  match s.cell s.head with
  | none => some (.fault, s)
  | some hd =>
    let cur := hd.ptr
    match s.cell cur with
    | none => some (.fault, s)
    | some c =>
      let cur := c.ptr
      match clear_loop fuel s cur with
      | none => none
      | some (.ok (), s1) =>
        let s2 : State T := { s1 with num_nodes := 0 }
        match s2.cell s2.head with
        | none => some (.fault, s2)
        | some hd2 =>
          let s3 := s2.store s2.head { hd2 with ptr := s2.tail }
          match s3.cell s3.tail with
          | none => some (.fault, s3)
          | some tl3 => some (.ok (), s3.store s3.tail { tl3 with ptr := s3.head })
      | some r => some r

/-- The class `const_iterator` (`iterator` is a typedef of it). -/
structure const_iterator where
  cur : Nat
  prev : Nat
  forward : Bool
  deriving DecidableEq

/-- The private member `iterate()`. -/
def const_iterator.iterate (s : State T) (it : const_iterator) : Status const_iterator :=
  if it.cur = 0 then .threw .null_ptr else
  if it.prev = 0 then .threw .null_ptr else
  match s.cell it.cur with
  | none => .fault
  | some n =>
    let next := it.prev ^^^ n.ptr
    .ok { it with prev := it.cur, cur := next }

/-- The private member `swap_direction()`. -/
def const_iterator.swap_direction (it : const_iterator) : const_iterator :=
  let tmp := it.cur
  { cur := it.prev, prev := tmp, forward := if it.forward then false else true }

/-- The effect of pre-fix `operator++` on the cursor it is called on. -/
def const_iterator.inc (s : State T) (it : const_iterator) : Status const_iterator :=
  if !it.forward then .ok it.swap_direction else it.iterate s

/-- The effect of pre-fix `operator--` on the cursor it is called on. -/
def const_iterator.dec (s : State T) (it : const_iterator) : Status const_iterator :=
  if it.forward then .ok it.swap_direction else it.iterate s

/-- The member `operator*`. -/
def const_iterator.deref (s : State T) (it : const_iterator) : Status T :=
  if it.cur = 0 then .threw .null_ptr else
  match s.cell it.cur with
  | none => .fault
  | some n =>
    match n.data with
    | none => .fault
    | some v => .ok v

/-- The member `operator==`. -/
def const_iterator.eq (a b : const_iterator) : Bool :=
  if a.cur = b.cur ∧ a.prev = b.prev then true else false

/-- The member `operator!=`. -/
def const_iterator.ne (a b : const_iterator) : Bool := !(a.eq b)

/-- The member `begin()`. -/
def begin_ (s : State T) : Status const_iterator :=
  match s.cell s.head with
  | none => .fault
  | some hd => .ok { cur := hd.ptr, prev := s.head, forward := true }

/-- The member `rbegin()`. -/
def rbegin (s : State T) : Status const_iterator :=
  match s.cell s.tail with
  | none => .fault
  | some tl => .ok { cur := tl.ptr, prev := s.tail, forward := true }

/-- The member `end()`. -/
def end_ (s : State T) : Status const_iterator :=
  match s.cell s.tail with
  | none => .fault
  | some tl => .ok { cur := s.tail, prev := tl.ptr, forward := true }

/-- The member `rend()`. -/
def rend (s : State T) : Status const_iterator :=
  match s.cell s.head with
  | none => .fault
  | some hd => .ok { cur := s.head, prev := hd.ptr, forward := true }

/-- The loop `for(iter = first; iter != last; ++iter){ printf("%s\n", *iter); }` of the
test program, returning the payloads it prints. -/
def walk (s : State T) : Nat → const_iterator → const_iterator → Option (Status (List T))
  | 0, _, _ => none
  | fuel + 1, it, last =>
    if it.ne last then
      match it.deref s with
      | .ok v =>
        match it.inc s with
        | .ok it1 =>
          match walk s fuel it1 last with
          | some (.ok vs) => some (.ok (v :: vs))
          | r => r
        | .threw e => some (.threw e)
        | .fault => some .fault
      | .threw e => some (.threw e)
      | .fault => some .fault
    else some (.ok [])

/-- The number of `++` steps that take `it` to a cursor equal to `last`. -/
def advances (s : State T) : Nat → const_iterator → const_iterator → Option (Status Nat)
  | 0, _, _ => none
  | fuel + 1, it, last =>
    if it.ne last then
      match it.inc s with
      | .ok it1 =>
        match advances s fuel it1 last with
        | some (.ok k) => some (.ok (k + 1))
        | r => r
      | .threw e => some (.threw e)
      | .fault => some .fault
    else some (.ok 0)

/-- Forward traversal: the loop from `begin()` to `end()`. -/
def forward_walk (s : State T) (fuel : Nat) : Option (Status (List T)) :=
  match begin_ s, end_ s with
  | .ok b, .ok e => walk s fuel b e
  | _, _ => some .fault

/-- Backward traversal: the same loop from `rbegin()` to `rend()`. -/
def backward_walk (s : State T) (fuel : Nat) : Option (Status (List T)) :=
  match rbegin s, rend s with
  | .ok b, .ok e => walk s fuel b e
  | _, _ => some .fault

/-- The count of `++` steps from `begin()` to `end()`. -/
def forward_advances (s : State T) (fuel : Nat) : Option (Status Nat) :=
  match begin_ s, end_ s with
  | .ok b, .ok e => advances s fuel b e
  | _, _ => some .fault

/-- Run `push_back` for each (address, item) pair in turn, stopping at the first failure. -/
def push_back_all : List (Nat × T) → State T → Status Unit × State T
  | [], s => (.ok (), s)
  | e :: rest, s =>
    match push_back e.1 e.2 s with
    | (.ok _, s1) => push_back_all rest s1
    | r => r

/-- The loop `do { del = prev; tmp = prev ^ cur->ptr; prev = cur; cur = tmp; delete del; }
while(cur != NULL)` of the destructor. -/
def dtor_loop : Nat → State T → Nat → Nat → Option (Status Unit × State T)
  | 0, _, _, _ => none
  | fuel + 1, s, cur, prev =>
    let del := prev
    match s.cell cur with
    | none => some (.fault, s)
    | some c =>
      let tmp := prev ^^^ c.ptr
      let prev := cur
      let cur := tmp
      match s.cell del with
      | none => some (.fault, s)
      | some _ =>
        let s1 := s.release del
        if cur = 0 then some (.ok (), s1) else dtor_loop fuel s1 cur prev

/-- The destructor `~xlinked_list()`. -/
def dtor (fuel : Nat) (s : State T) : Option (Status Unit × State T) :=
  if s.head ≠ 0 ∧ s.tail ≠ 0 then
    match s.cell s.head with
    | none => some (.fault, s)
    | some hd => dtor_loop fuel s hd.ptr s.head
  else some (.ok (), s)

/-- The copy constructor `xlinked_list(const xlinked_list& other)`: the three members of
the new object, over the store as it is (nothing is allocated or written). -/
def copy_ctor (other : State T) : State T :=
  { cell := other.cell, freed := other.freed, head := other.head, tail := other.tail,
    num_nodes := other.num_nodes }

/-- The object whose members are those of `obj`, over the store as `store` left it: how an
object sees the free store after another object was operated on. -/
def State.seen_from (store obj : State T) : State T :=
  { cell := store.cell, freed := store.freed, head := obj.head, tail := obj.tail,
    num_nodes := obj.num_nodes }

/-- Address of the first entry of `es`, or `d` when there is none. -/
def hdOr (es : List (Nat × T)) (d : Nat) : Nat :=
  match es with
  | [] => d
  | e :: _ => e.1

/-- Address of the last entry of `es`, or `d` when there is none. -/
def lastOr : List (Nat × T) → Nat → Nat
  | [], d => d
  | e :: rest, _ => lastOr rest e.1

/-- The element nodes `es` (address, payload) are laid out in this order between the
node at `p` and the node at `n`: each link is the xor of its two neighbours. -/
def Seg (cell : Nat → Option (xll_node T)) : Nat → List (Nat × T) → Nat → Prop
  | _, [], _ => True
  | p, e :: rest, n =>
    cell e.1 = some { ptr := p ^^^ hdOr rest n, data := some e.2 } ∧ Seg cell e.1 rest n

/-- The state `s` holds a well-formed list whose element nodes are `es`, front to back. -/
structure Shape (s : State T) (es : List (Nat × T)) : Prop where
  head_cell : s.cell s.head = some { ptr := hdOr es s.tail, data := none }
  tail_cell : s.cell s.tail = some { ptr := lastOr es s.head, data := none }
  seg : Seg s.cell s.head es s.tail
  nodup : (s.head :: s.tail :: es.map Prod.fst).Nodup
  nonzero : ∀ a ∈ s.head :: s.tail :: es.map Prod.fst, a ≠ 0
  bound : ∀ a ∈ s.head :: s.tail :: es.map Prod.fst, a < WORD
  count : s.num_nodes = es.length

/-- States reachable from the constructor by the public modifiers; `new` hands out a
non-null word-sized address that holds no live node. -/
inductive Reachable : State T → Prop where
  | init (h t : Nat) : h ≠ 0 → t ≠ 0 → h ≠ t → h < WORD → t < WORD → Reachable (ctor h t)
  | pushFront {s : State T} (a : Nat) (x : T) :
      Reachable s → s.cell a = none → a ≠ 0 → a < WORD → Reachable (push_front a x s).2
  | pushBack {s : State T} (a : Nat) (x : T) :
      Reachable s → s.cell a = none → a ≠ 0 → a < WORD → Reachable (push_back a x s).2
  | popFront {s : State T} : Reachable s → Reachable (pop_front s).2
  | popBack {s : State T} : Reachable s → Reachable (pop_back s).2
  | rev {s : State T} : Reachable s → Reachable (reverse s)

/-- The insertion formulas as the specification words them: node `N` with payload `x` goes
between `A` and its neighbour `B`; `A.link := A.link XOR B XOR N`, `N.link := A XOR B`,
`B.link := B.link XOR A XOR N`, payloads of `A` and `B` kept, every other cell as before. -/
def InsertRelink (c c2 : Nat → Option (xll_node T)) (A B N : Nat) (x : T) : Prop :=
  (∃ nA, c A = some nA ∧ c2 A = some { ptr := nA.ptr ^^^ B ^^^ N, data := nA.data }) ∧
    c2 N = some { ptr := A ^^^ B, data := some x } ∧
    (∃ nB, c B = some nB ∧ c2 B = some { ptr := nB.ptr ^^^ A ^^^ N, data := nB.data }) ∧
    ∀ b, b ≠ A → b ≠ N → b ≠ B → c2 b = c b

/-- The removal formulas as the specification words them: node `R` between `A` and `C` goes
away; `A.link := A.link XOR R XOR C`, `C.link := C.link XOR R XOR A`, payloads of `A` and
`C` kept, the storage of `R` released, every other cell as before. -/
def RemoveRelink (c c2 : Nat → Option (xll_node T)) (A R C : Nat) : Prop :=
  (∃ nA, c A = some nA ∧ c2 A = some { ptr := nA.ptr ^^^ R ^^^ C, data := nA.data }) ∧
    (∃ nC, c C = some nC ∧ c2 C = some { ptr := nC.ptr ^^^ R ^^^ A, data := nC.data }) ∧
    c2 R = none ∧
    ∀ b, b ≠ A → b ≠ R → b ≠ C → c2 b = c b

/-! ## Basic facts -/

@[simp]
theorem store_cell (s : State T) (a : Nat) (n : xll_node T) (b : Nat) :
    (s.store a n).cell b = if b = a then some n else s.cell b := rfl
@[simp]
theorem store_head (s : State T) (a : Nat) (n : xll_node T) : (s.store a n).head = s.head := rfl
@[simp]
theorem store_tail (s : State T) (a : Nat) (n : xll_node T) : (s.store a n).tail = s.tail := rfl
@[simp]
theorem store_num (s : State T) (a : Nat) (n : xll_node T) :
    (s.store a n).num_nodes = s.num_nodes := rfl
@[simp]
theorem store_freed (s : State T) (a : Nat) (n : xll_node T) : (s.store a n).freed = s.freed := rfl
@[simp]
theorem release_cell (s : State T) (a b : Nat) :
    (s.release a).cell b = if b = a then none else s.cell b := rfl
@[simp]
theorem release_head (s : State T) (a : Nat) : (s.release a).head = s.head := rfl
@[simp]
theorem release_tail (s : State T) (a : Nat) : (s.release a).tail = s.tail := rfl
@[simp]
theorem release_num (s : State T) (a : Nat) : (s.release a).num_nodes = s.num_nodes := rfl
@[simp]
theorem release_freed (s : State T) (a : Nat) : (s.release a).freed = s.freed ++ [a] := rfl
@[simp]
theorem reverse_cell (s : State T) : (reverse s).cell = s.cell := rfl
@[simp]
theorem reverse_head (s : State T) : (reverse s).head = s.tail := rfl
@[simp]
theorem reverse_tail (s : State T) : (reverse s).tail = s.head := rfl
@[simp]
theorem reverse_num (s : State T) : (reverse s).num_nodes = s.num_nodes := rfl
@[simp]
theorem reverse_freed (s : State T) : (reverse s).freed = s.freed := rfl
@[simp]
theorem reverse_reverse (s : State T) : reverse (reverse s) = s := rfl

theorem hdOr_append (es : List (Nat × T)) (e : Nat × T) (d : Nat) :
    hdOr (es ++ [e]) d = hdOr es e.1 := by
  cases es <;> rfl

theorem lastOr_append (es : List (Nat × T)) (e : Nat × T) (d : Nat) :
    lastOr (es ++ [e]) d = e.1 := by
  induction es generalizing d with
  | nil => rfl
  | cons f r ih => simpa [lastOr] using ih f.1

theorem hdOr_reverse (es : List (Nat × T)) (d : Nat) : hdOr es.reverse d = lastOr es d := by
  induction es generalizing d with
  | nil => rfl
  | cons f r ih => simp [hdOr_append, lastOr, ih]

theorem lastOr_reverse (es : List (Nat × T)) (d : Nat) : lastOr es.reverse d = hdOr es d := by
  cases es with
  | nil => rfl
  | cons f r => simp [lastOr_append, hdOr]

theorem Seg.frame {cell cell2 : Nat → Option (xll_node T)} {p n : Nat} {es : List (Nat × T)}
    (h : Seg cell p es n) (hc : ∀ e ∈ es, cell2 e.1 = cell e.1) : Seg cell2 p es n := by
  induction es generalizing p with
  | nil => trivial
  | cons e r ih =>
    refine ⟨?_, ih h.2 fun f hf => hc f (List.mem_cons_of_mem _ hf)⟩
    rw [hc e (List.mem_cons_self _ _)]
    exact h.1

theorem Seg.snoc {cell : Nat → Option (xll_node T)} {p n : Nat} {es : List (Nat × T)}
    {e : Nat × T} :
    Seg cell p (es ++ [e]) n ↔
      Seg cell p es e.1 ∧ cell e.1 = some { ptr := lastOr es p ^^^ n, data := some e.2 } := by
  induction es generalizing p with
  | nil => simp [Seg, hdOr, lastOr]
  | cons f r ih =>
    have hstep : Seg cell p (f :: r ++ [e]) n ↔
        cell f.1 = some { ptr := p ^^^ hdOr (r ++ [e]) n, data := some f.2 } ∧
          Seg cell f.1 (r ++ [e]) n := Iff.rfl
    rw [hstep, ih, hdOr_append]
    simp only [Seg, lastOr]
    tauto

theorem Seg.flip {cell : Nat → Option (xll_node T)} {p n : Nat} {es : List (Nat × T)}
    (h : Seg cell p es n) : Seg cell n es.reverse p := by
  induction es generalizing p with
  | nil => trivial
  | cons e r ih =>
    rw [List.reverse_cons, Seg.snoc]
    refine ⟨ih h.2, ?_⟩
    rw [lastOr_reverse, Nat.xor_comm]
    exact h.1

theorem Shape.rev {s : State T} {es : List (Nat × T)} (h : Shape s es) :
    Shape (reverse s) es.reverse where
  head_cell := by simpa [hdOr_reverse] using h.tail_cell
  tail_cell := by simpa [lastOr_reverse] using h.head_cell
  seg := h.seg.flip
  nodup := by
    have := h.nodup
    simp only [reverse_head, reverse_tail, List.map_reverse]
    refine (List.Perm.nodup_iff ?_).mp this
    exact (List.Perm.swap _ _ _).trans (((List.reverse_perm _).symm.cons _).cons _)
  nonzero := by
    intro a ha
    apply h.nonzero
    simp at ha ⊢
    tauto
  bound := by
    intro a ha
    apply h.bound
    simp at ha ⊢
    tauto
  count := by simpa using h.count

theorem length_le_of_nodup_bound {l : List Nat} {N : Nat} (hn : l.Nodup)
    (hb : ∀ a ∈ l, a < N) : l.length ≤ N := by
  have hsub : l ⊆ List.range N := fun a ha => List.mem_range.mpr (hb a ha)
  simpa using (List.subperm_of_subset hn hsub).length_le

theorem ctor_shape {h t : Nat} (h0 : h ≠ 0) (t0 : t ≠ 0) (hne : h ≠ t) (hw : h < WORD)
    (tw : t < WORD) : Shape (ctor h t : State T) [] where
  head_cell := by simp [ctor, hdOr, hne]
  tail_cell := by simp [ctor, lastOr]
  seg := trivial
  nodup := by simp [ctor, hne]
  nonzero := by simp [ctor, h0, t0]
  bound := by simp [ctor, hw, tw]
  count := by simp [ctor]

theorem xor_cancel_mid (p q : Nat) : (p ^^^ q) ^^^ p = q := by
  rw [Nat.xor_comm p q, Nat.xor_assoc, Nat.xor_self, Nat.xor_zero]

theorem push_front_shape {s : State T} {es : List (Nat × T)} (h : Shape s es) {a : Nat} (x : T)
    (ha : a ∉ s.head :: s.tail :: es.map Prod.fst) (a0 : a ≠ 0) (aw : a < WORD) :
    (push_front a x s).1 = .ok () ∧ Shape (push_front a x s).2 ((a, x) :: es) ∧
      (push_front a x s).2.head = s.head ∧ (push_front a x s).2.tail = s.tail ∧
      (push_front a x s).2.freed = s.freed ∧
      ∀ b, b ≠ s.head → b ≠ a → b ≠ hdOr es s.tail → (push_front a x s).2.cell b = s.cell b := by
  obtain ⟨hh, ht, hseg, hnd, hnz, hb, hc⟩ := h
  have hlen : es.length + 1 < WORD := by
    have h1 : (a :: s.head :: s.tail :: es.map Prod.fst).Nodup := List.nodup_cons.mpr ⟨ha, hnd⟩
    have h2 : ∀ b ∈ a :: s.head :: s.tail :: es.map Prod.fst, b < WORD := by
      intro b hb2
      rcases List.mem_cons.mp hb2 with rfl | hb2
      · exact aw
      · exact hb b hb2
    have := length_le_of_nodup_bound h1 h2
    simp at this
    omega
  have hcount : (s.num_nodes + 1) % WORD = es.length + 1 := by
    rw [hc]; exact Nat.mod_eq_of_lt hlen
  cases es with
  | nil =>
    simp [hdOr, lastOr] at hh ht hnd hnz ha hb
    obtain ⟨hah, hat⟩ := ha
    have hha : s.head ≠ a := fun e => hah e.symm
    have hta : s.tail ≠ a := fun e => hat e.symm
    have hth : s.tail ≠ s.head := fun e => hnd e.symm
    simp [push_front, hh, ht, hnz.1, hnz.2, hha, hta, hth, hah, hat, hnd]
    refine ⟨⟨by simp [hdOr], by simp [lastOr, hth, hta], by simp [Seg, hdOr, hah],
      by simp [hnd, hha, hta], by simp [hnz, a0], by simp [hb, aw], by simpa using hcount⟩, ?_⟩
    intro b h1 h2 h3
    simp only [hdOr] at h3
    simp [h1, h2, h3]
  | cons e r =>
    simp [hdOr, lastOr] at hh ht hnd hnz ha hb
    obtain ⟨hah, hat, hae, har⟩ := ha
    obtain ⟨⟨hht, hhe, hhr⟩, ⟨hte, htr⟩, her, hrnd⟩ := hnd
    obtain ⟨he, hr⟩ := hseg
    have hha : s.head ≠ a := fun e => hah e.symm
    have hta : s.tail ≠ a := fun e => hat e.symm
    have hea : e.1 ≠ a := fun e => hae e.symm
    have hth : s.tail ≠ s.head := fun e => hht e.symm
    have heh : e.1 ≠ s.head := fun e => hhe e.symm
    have het : e.1 ≠ s.tail := fun e => hte e.symm
    simp [push_front, hh, ht, he, hnz.1, hnz.2.1, hnz.2.2.1, hha, hta, hth, hah, hat, hht, hea, heh,
      hae, hhe, xor_cancel_mid]
    refine ⟨⟨by simp [hdOr], by simp [lastOr, hth, hta, het.symm, hte, ht], ?_,
      by simp [hha, hta, hae, hht, hhe, hte, her, hrnd]; tauto, by simp [hnz, a0]; tauto,
      by simp [hb, aw]; tauto, by simpa using hcount⟩, ?_⟩
    · refine ⟨by simp [hdOr, hah], by simp [hea, heh], hr.frame ?_⟩
      intro f hf
      have hfa : f.1 ≠ a := fun q => har f.2 (by rw [← q]; exact hf)
      have hfe : f.1 ≠ e.1 := fun q => her f.2 (by rw [← q]; exact hf)
      have hfh : f.1 ≠ s.head := fun q => hhr f.2 (by rw [← q]; exact hf)
      simp [hfa, hfe, hfh]
    · intro b h1 h2 h3
      simp only [hdOr] at h3
      simp [h1, h2, h3]

theorem pop_front_empty {s : State T} (h : Shape s []) : pop_front s = (.threw .empty, s) := by
  obtain ⟨hh, ht, -, hnd, hnz, -, -⟩ := h
  simp [hdOr, lastOr] at hh ht hnd hnz
  simp [pop_front, hh, ht, hnz.1, hnz.2]

theorem pop_front_shape {s : State T} {e : Nat × T} {r : List (Nat × T)}
    (h : Shape s (e :: r)) :
    (pop_front s).1 = .ok () ∧ Shape (pop_front s).2 r ∧
      (pop_front s).2.head = s.head ∧ (pop_front s).2.tail = s.tail ∧
      (pop_front s).2.freed = s.freed ++ [e.1] ∧ (pop_front s).2.cell e.1 = none ∧
      ∀ b, b ≠ s.head → b ≠ e.1 → b ≠ hdOr r s.tail → (pop_front s).2.cell b = s.cell b := by
  obtain ⟨hh, ht, hseg, hnd, hnz, hb, hc⟩ := h
  have hlen : r.length < WORD := by
    have := length_le_of_nodup_bound hnd hb
    simp at this
    omega
  have hcount : (s.num_nodes + WORD - 1) % WORD = r.length := by
    rw [hc, List.length_cons]
    have : r.length + 1 + WORD - 1 = r.length + WORD := by omega
    rw [this, Nat.add_mod_right, Nat.mod_eq_of_lt hlen]
  cases r with
  | nil =>
    simp [hdOr, lastOr, Seg] at hh ht hnd hnz hb hseg
    obtain ⟨⟨hht, hhe⟩, hte⟩ := hnd
    have hth : s.tail ≠ s.head := fun e => hht e.symm
    have heh : e.1 ≠ s.head := fun e => hhe e.symm
    have het : e.1 ≠ s.tail := fun e => hte e.symm
    simp [pop_front, hh, ht, hseg, hnz.1, hnz.2.1, hnz.2.2, hth, hht, heh, het, hhe, hte,
      xor_cancel_mid]
    refine ⟨⟨by simp [hdOr, hhe, hht], by simp [lastOr, hte], trivial, by simp [hht],
      by simp [hnz], by simp [hb], by simpa using hcount⟩, ?_⟩
    intro b h1 h2 h3
    simp only [hdOr] at h3
    simp [h1, h2, h3]
  | cons f r =>
    simp [hdOr, lastOr] at hh ht hnd hnz hb
    obtain ⟨⟨hht, hhe, hhf, hhr⟩, ⟨hte, htf, htr⟩, ⟨hef, her⟩, hfr, hrnd⟩ := hnd
    obtain ⟨he, hf, hr⟩ := hseg
    simp only [hdOr] at he
    have hth : s.tail ≠ s.head := fun e => hht e.symm
    have heh : e.1 ≠ s.head := fun e => hhe e.symm
    have het : e.1 ≠ s.tail := fun e => hte e.symm
    have hfh : f.1 ≠ s.head := fun e => hhf e.symm
    have hft : f.1 ≠ s.tail := fun e => htf e.symm
    have hfe : f.1 ≠ e.1 := fun e => hef e.symm
    simp [pop_front, hh, ht, he, hf, hnz.1, hnz.2.1, hnz.2.2.1, hnz.2.2.2.1, hth, hht, heh, het,
      hhe, hte, hfh, hft, hfe, hef, hhf, xor_cancel_mid]
    refine ⟨⟨by simp [hdOr, hhe, hhf], by simp [lastOr, hte, htf, hht, hth, ht], ?_,
      by simp [hht, hhf, htf, hfr, hrnd]; exact ⟨hhr, htr⟩,
      by simp [hnz]; exact hnz.2.2.2.2, by simp [hb]; exact hb.2.2.2.2, by simpa using hcount⟩, ?_⟩
    · refine ⟨by simp [hfe], hr.frame ?_⟩
      intro g hg
      have hge : g.1 ≠ e.1 := fun q => her g.2 (by rw [← q]; exact hg)
      have hgf : g.1 ≠ f.1 := fun q => hfr g.2 (by rw [← q]; exact hg)
      have hgh : g.1 ≠ s.head := fun q => hhr g.2 (by rw [← q]; exact hg)
      simp [hge, hgf, hgh]
    · intro b h1 h2 h3
      simp only [hdOr] at h3
      simp [h1, h2, h3]

theorem reverse_store (s : State T) (a : Nat) (n : xll_node T) :
    (reverse s).store a n = reverse (s.store a n) := rfl

theorem reverse_release (s : State T) (a : Nat) :
    (reverse s).release a = reverse (s.release a) := rfl

theorem push_back_eq (a : Nat) (x : T) (s : State T) :
    push_back a x s =
      ((push_front a x (reverse s)).1, reverse (push_front a x (reverse s)).2) := by
  unfold push_back push_front
  simp only [reverse_head, reverse_cell, store_head, store_tail, reverse_tail, store_cell,
    reverse_store, reverse_num]
  repeat' first | rfl | split

theorem pop_back_eq (s : State T) :
    pop_back s = ((pop_front (reverse s)).1, reverse (pop_front (reverse s)).2) := by
  unfold pop_back pop_front
  simp only [reverse_head, reverse_cell, reverse_tail, reverse_store, reverse_release]
  by_cases h0 : s.tail = 0
  · simp only [h0, if_true]; rfl
  simp only [h0, if_false]
  cases hc : s.cell s.tail with
  | none => rfl
  | some tl =>
    simp only []
    by_cases hp : tl.ptr = 0
    · simp only [hp, if_true]; rfl
    simp only [hp, if_false]
    cases hc1 : s.cell tl.ptr with
    | none => rfl
    | some n1 =>
      simp only []
      by_cases hn2 : n1.ptr ^^^ s.tail = 0
      · simp only [hn2, if_true, reverse_cell, reverse_num]
        repeat' first | rfl | split
      · simp only [hn2, if_false]
        cases hc2 : s.cell (n1.ptr ^^^ s.tail) with
        | none => rfl
        | some n2 =>
          simp only [Option.map_some']
          by_cases he : tl.ptr = s.head
          · simp only [he, if_true]; rfl
          simp only [he, if_false]
          cases hc3 : (s.store s.tail { ptr := n1.ptr ^^^ s.tail, data := tl.data }).cell
              (n1.ptr ^^^ s.tail) with
          | none => rfl
          | some n3 =>
            simp only [Option.map_some', reverse_cell, reverse_num, reverse_store]
            repeat' first | rfl | split

theorem back_eq (s : State T) :
    back s = ((front (reverse s)).1, reverse (front (reverse s)).2) := by
  unfold back front
  simp only [reverse_head, reverse_cell, store_head, store_tail, reverse_tail]
  repeat' first | rfl | split

theorem walk_seg (s : State T) {p t : Nat} {es : List (Nat × T)} (fw : Bool)
    (hseg : Seg s.cell p es t) (hp : p ≠ 0) (hne : ∀ e ∈ es, e.1 ≠ t ∧ e.1 ≠ 0) (fuel : Nat) :
    walk s fuel { cur := hdOr es t, prev := p, forward := true }
        { cur := t, prev := lastOr es p, forward := fw } =
      if es.length < fuel then some (.ok (es.map Prod.snd)) else none := by
  induction es generalizing p fuel with
  | nil =>
    cases fuel with
    | zero => simp [walk]
    | succ k => simp [walk, hdOr, lastOr, const_iterator.ne, const_iterator.eq]
  | cons e r ih =>
    cases fuel with
    | zero => simp [walk]
    | succ k =>
      have h1 := (hne e (List.mem_cons_self _ _)).1
      have h2 := (hne e (List.mem_cons_self _ _)).2
      have hrec := ih hseg.2 h2 (fun f hf => hne f (List.mem_cons_of_mem _ hf)) k
      have hcell := hseg.1
      show walk s (k + 1) { cur := e.1, prev := p, forward := true }
          { cur := t, prev := lastOr r e.1, forward := fw } = _
      simp only [walk, const_iterator.ne, const_iterator.eq, const_iterator.deref,
        const_iterator.inc, const_iterator.iterate, h1, h2, hp, hcell, Nat.xor_cancel_left, hrec,
        false_and, if_false, Bool.not_false, if_true, Bool.not_true, Bool.false_eq_true]
      by_cases hk : r.length < k <;> simp [hk]

theorem advances_seg (s : State T) {p t : Nat} {es : List (Nat × T)} (fw : Bool)
    (hseg : Seg s.cell p es t) (hp : p ≠ 0) (hne : ∀ e ∈ es, e.1 ≠ t ∧ e.1 ≠ 0) (fuel : Nat) :
    advances s fuel { cur := hdOr es t, prev := p, forward := true }
        { cur := t, prev := lastOr es p, forward := fw } =
      if es.length < fuel then some (.ok es.length) else none := by
  induction es generalizing p fuel with
  | nil =>
    cases fuel with
    | zero => simp [advances]
    | succ k => simp [advances, hdOr, lastOr, const_iterator.ne, const_iterator.eq]
  | cons e r ih =>
    cases fuel with
    | zero => simp [advances]
    | succ k =>
      have h1 := (hne e (List.mem_cons_self _ _)).1
      have h2 := (hne e (List.mem_cons_self _ _)).2
      have hrec := ih hseg.2 h2 (fun f hf => hne f (List.mem_cons_of_mem _ hf)) k
      have hcell := hseg.1
      show advances s (k + 1) { cur := e.1, prev := p, forward := true }
          { cur := t, prev := lastOr r e.1, forward := fw } = _
      simp only [advances, const_iterator.ne, const_iterator.eq,
        const_iterator.inc, const_iterator.iterate, h1, h2, hp, hcell, Nat.xor_cancel_left, hrec,
        false_and, if_false, Bool.not_false, if_true, Bool.not_true, Bool.false_eq_true]
      by_cases hk : r.length < k <;> simp [hk]

theorem Shape.elem_ne {s : State T} {es : List (Nat × T)} (h : Shape s es) :
    ∀ e ∈ es, e.1 ≠ s.tail ∧ e.1 ≠ 0 := by
  intro e he
  have hm : e.1 ∈ es.map Prod.fst := List.mem_map_of_mem _ he
  refine ⟨?_, h.nonzero _ (by simp [hm])⟩
  intro heq
  have := h.nodup
  simp only [List.nodup_cons] at this
  exact this.2.1 (heq ▸ hm)

theorem forward_walk_shape {s : State T} {es : List (Nat × T)} (h : Shape s es) (fuel : Nat) :
    forward_walk s fuel = if es.length < fuel then some (.ok (es.map Prod.snd)) else none := by
  simp only [forward_walk, begin_, end_, h.head_cell, h.tail_cell]
  exact walk_seg s true h.seg (h.nonzero _ (by simp)) h.elem_ne fuel

theorem forward_advances_shape {s : State T} {es : List (Nat × T)} (h : Shape s es)
    (fuel : Nat) :
    forward_advances s fuel = if es.length < fuel then some (.ok es.length) else none := by
  simp only [forward_advances, begin_, end_, h.head_cell, h.tail_cell]
  exact advances_seg s true h.seg (h.nonzero _ (by simp)) h.elem_ne fuel

theorem walk_reverse (s : State T) (fuel : Nat) (a b : const_iterator) :
    walk (reverse s) fuel a b = walk s fuel a b := by
  induction fuel generalizing a with
  | zero => rfl
  | succ k ih =>
    simp only [walk, ih]
    rfl

theorem backward_walk_eq (s : State T) (fuel : Nat) :
    backward_walk s fuel = forward_walk (reverse s) fuel := by
  simp only [backward_walk, forward_walk, rbegin, rend, begin_, end_, reverse_cell, reverse_head,
    reverse_tail, walk_reverse]

theorem backward_walk_shape {s : State T} {es : List (Nat × T)} (h : Shape s es) (fuel : Nat) :
    backward_walk s fuel =
      if es.length < fuel then some (.ok (es.map Prod.snd).reverse) else none := by
  rw [backward_walk_eq, forward_walk_shape h.rev]
  simp

theorem push_back_shape {s : State T} {es : List (Nat × T)} (h : Shape s es) {a : Nat} (x : T)
    (ha : a ∉ s.head :: s.tail :: es.map Prod.fst) (a0 : a ≠ 0) (aw : a < WORD) :
    (push_back a x s).1 = .ok () ∧ Shape (push_back a x s).2 (es ++ [(a, x)]) ∧
      (push_back a x s).2.head = s.head ∧ (push_back a x s).2.tail = s.tail ∧
      (push_back a x s).2.freed = s.freed ∧
      ∀ b, b ≠ s.tail → b ≠ a → b ≠ lastOr es s.head → (push_back a x s).2.cell b = s.cell b := by
  have ha2 : a ∉ (reverse s).head :: (reverse s).tail :: es.reverse.map Prod.fst := by
    intro hmem
    apply ha
    simp at hmem ⊢
    tauto
  obtain ⟨h1, h2, h3, h4, h5, h6⟩ := push_front_shape h.rev x ha2 a0 aw
  rw [push_back_eq]
  refine ⟨h1, ?_, h4, h3, h5, ?_⟩
  · simpa using h2.rev
  · intro b hb1 hb2 hb3
    exact h6 b hb1 hb2 (by rwa [hdOr_reverse])

theorem pop_back_shape {s : State T} {e : Nat × T} {r : List (Nat × T)}
    (h : Shape s (r ++ [e])) :
    (pop_back s).1 = .ok () ∧ Shape (pop_back s).2 r ∧
      (pop_back s).2.head = s.head ∧ (pop_back s).2.tail = s.tail ∧
      (pop_back s).2.freed = s.freed ++ [e.1] ∧ (pop_back s).2.cell e.1 = none ∧
      ∀ b, b ≠ s.tail → b ≠ e.1 → b ≠ lastOr r s.head → (pop_back s).2.cell b = s.cell b := by
  have hrev : Shape (reverse s) (e :: r.reverse) := by simpa using h.rev
  obtain ⟨h1, h2, h3, h4, h5, h6, h7⟩ := pop_front_shape hrev
  rw [pop_back_eq]
  refine ⟨h1, ?_, h4, h3, h5, h6, ?_⟩
  · simpa using h2.rev
  · intro b hb1 hb2 hb3
    exact h7 b hb1 hb2 (by rwa [hdOr_reverse])

theorem pop_back_empty {s : State T} (h : Shape s []) : pop_back s = (.threw .empty, s) := by
  have hrev : Shape (reverse s) [] := by simpa using h.rev
  rw [pop_back_eq, pop_front_empty hrev]
  rfl

theorem front_shape {s : State T} {e : Nat × T} {r : List (Nat × T)} (h : Shape s (e :: r)) :
    front s = (.ok e.2, s) := by
  have hn := h.nodup
  have h0 := h.nonzero
  have hc := h.seg.1
  have hh := h.head_cell
  simp [hdOr] at hn h0 hh
  simp [front, hh, hc, h0.1, h0.2.2.1, Ne.symm hn.2.1.1]

theorem front_empty {s : State T} (h : Shape s []) : front s = (.threw .empty, s) := by
  have h0 := h.nonzero
  have hh := h.head_cell
  simp [hdOr] at h0 hh
  simp [front, hh, h0.1, h0.2]

theorem back_shape {s : State T} {e : Nat × T} {r : List (Nat × T)} (h : Shape s (r ++ [e])) :
    back s = (.ok e.2, s) := by
  have hrev : Shape (reverse s) (e :: r.reverse) := by simpa using h.rev
  rw [back_eq, front_shape hrev]
  rfl

theorem back_empty {s : State T} (h : Shape s []) : back s = (.threw .empty, s) := by
  have hrev : Shape (reverse s) [] := by simpa using h.rev
  rw [back_eq, front_empty hrev]
  rfl

theorem Seg.cells_live {cell : Nat → Option (xll_node T)} {p n : Nat} {es : List (Nat × T)}
    (h : Seg cell p es n) : ∀ e ∈ es, cell e.1 ≠ none := by
  induction es generalizing p with
  | nil => simp
  | cons f r ih =>
    intro e he
    rcases List.mem_cons.mp he with rfl | he
    · rw [h.1]; simp
    · exact ih h.2 e he

theorem Shape.live {s : State T} {es : List (Nat × T)} (h : Shape s es) :
    ∀ b ∈ s.head :: s.tail :: es.map Prod.fst, s.cell b ≠ none := by
  intro b hb
  simp only [List.mem_cons, List.mem_map] at hb
  rcases hb with rfl | rfl | ⟨e, he, rfl⟩
  · rw [h.head_cell]; simp
  · rw [h.tail_cell]; simp
  · exact h.seg.cells_live e he

theorem Shape.fresh {s : State T} {es : List (Nat × T)} (h : Shape s es) {a : Nat}
    (ha : s.cell a = none) : a ∉ s.head :: s.tail :: es.map Prod.fst :=
  fun hmem => h.live a hmem ha

theorem Reachable.shape {s : State T} (h : Reachable s) : ∃ es, Shape s es := by
  induction h with
  | init h t h0 t0 hne hw tw => exact ⟨[], ctor_shape h0 t0 hne hw tw⟩
  | pushFront a x _ ha a0 aw ih =>
    obtain ⟨es, hs⟩ := ih
    exact ⟨_, (push_front_shape hs x (hs.fresh ha) a0 aw).2.1⟩
  | pushBack a x _ ha a0 aw ih =>
    obtain ⟨es, hs⟩ := ih
    exact ⟨_, (push_back_shape hs x (hs.fresh ha) a0 aw).2.1⟩
  | popFront _ ih =>
    obtain ⟨es, hs⟩ := ih
    cases es with
    | nil => exact ⟨[], by rw [pop_front_empty hs]; exact hs⟩
    | cons e r => exact ⟨r, (pop_front_shape hs).2.1⟩
  | popBack _ ih =>
    obtain ⟨es, hs⟩ := ih
    rcases List.eq_nil_or_concat es with rfl | ⟨r, e, rfl⟩
    · exact ⟨[], by rw [pop_back_empty hs]; exact hs⟩
    · exact ⟨r, (pop_back_shape (by simpa using hs)).2.1⟩
  | rev _ ih =>
    obtain ⟨es, hs⟩ := ih
    exact ⟨_, hs.rev⟩

theorem Shape.of_walk {s : State T} {es : List (Nat × T)} (h : Shape s es) {fuel : Nat}
    {xs : List T} (hw : forward_walk s fuel = some (.ok xs)) :
    xs = es.map Prod.snd ∧ es.length < fuel := by
  rw [forward_walk_shape h] at hw
  by_cases hk : es.length < fuel
  · simp [hk] at hw
    exact ⟨hw.symm, hk⟩
  · simp [hk] at hw

theorem push_back_all_shape {s : State T} {es0 : List (Nat × T)} (h : Shape s es0)
    (es : List (Nat × T)) (hnd : (s.head :: s.tail :: (es0 ++ es).map Prod.fst).Nodup)
    (hes : ∀ a ∈ es.map Prod.fst, a ≠ 0 ∧ a < WORD) :
    (push_back_all es s).1 = .ok () ∧ Shape (push_back_all es s).2 (es0 ++ es) := by
  induction es generalizing s es0 with
  | nil => simpa [push_back_all] using h
  | cons e r ih =>
    have he := hes e.1 (by simp)
    have hfresh : e.1 ∉ s.head :: s.tail :: es0.map Prod.fst := by
      have hnd2 : ((s.head :: s.tail :: es0.map Prod.fst) ++ (e.1 :: r.map Prod.fst)).Nodup := by
        simpa using hnd
      exact fun hmem => (List.nodup_append.mp hnd2).2.2 hmem (List.mem_cons_self _ _)
    obtain ⟨h1, h2, h3, h4, -, -⟩ := push_back_shape h e.2 hfresh he.1 he.2
    rcases hres : push_back e.1 e.2 s with ⟨st, s1⟩
    rw [hres] at h1 h2 h3 h4
    simp only at h1 h2 h3 h4
    subst h1
    have hrec := ih h2 (by simpa [h3, h4] using hnd)
      (fun a ha => hes a (by simp at ha ⊢; exact Or.inr ha))
    simpa [push_back_all, hres] using hrec


/-! ## The claims -/

/-- Claim C1: starting from a freshly constructed list, after `push_back(x1) … push_back(xn)`
with the allocator handing out pairwise distinct, non-null word addresses different from the
sentinels, every push succeeds, the loop from `begin()` to `end()` dereferences exactly
`x1, …, xn` in that order, and `end()` is reached after exactly `n` advances. -/
theorem push_back_forward_order (h t : Nat) (es : List (Nat × T))
    (h0 : h ≠ 0) (t0 : t ≠ 0) (hw : h < WORD) (tw : t < WORD)
    (hnd : (h :: t :: es.map Prod.fst).Nodup)
    (hes : ∀ a ∈ es.map Prod.fst, a ≠ 0 ∧ a < WORD) :
    (push_back_all es (ctor h t)).1 = .ok () ∧
      ∀ fuel, es.length < fuel →
        forward_walk (push_back_all es (ctor h t)).2 fuel = some (.ok (es.map Prod.snd)) ∧
        forward_advances (push_back_all es (ctor h t)).2 fuel = some (.ok es.length) := by
  have hne : h ≠ t := by
    intro e
    simp [e] at hnd
  have hs : Shape (ctor h t : State T) [] := ctor_shape h0 t0 hne hw tw
  have hnd2 : ((ctor h t : State T).head :: (ctor h t : State T).tail ::
      ([] ++ es).map Prod.fst).Nodup := by
    simpa [ctor] using hnd
  obtain ⟨h1, h2⟩ := push_back_all_shape hs es hnd2 hes
  refine ⟨h1, fun fuel hf => ?_⟩
  rw [List.nil_append] at h2
  rw [forward_walk_shape h2, forward_advances_shape h2]
  simp [hf]

theorem push_back_forward_order_witness :
    ((16 : Nat) ≠ 0 ∧ (32 : Nat) ≠ 0 ∧ 16 < WORD ∧ 32 < WORD ∧
      (16 :: 32 :: [(48, 10), (64, 20)].map Prod.fst).Nodup ∧
      (∀ a ∈ [(48, 10), (64, 20)].map Prod.fst, a ≠ 0 ∧ a < WORD)) ∧
    forward_walk (push_back_all [(48, 10), (64, 20)] (ctor 16 32 : State Nat)).2 3 =
      some (.ok [10, 20]) :=
  ⟨by decide,
    ((push_back_forward_order 16 32 [(48, 10), (64, 20)] (by decide) (by decide) (by decide)
      (by decide) (by decide) (by decide)).2 3 (by decide)).1⟩

/-- Claim C2: on every reachable (well-formed) list whose forward traversal yields `xs`,
`push_front(x)` into a fresh node succeeds, the forward traversal afterwards yields `x`
followed by `xs`, and `size()` has grown by exactly one. -/
theorem push_front_spec (s : State T) (hr : Reachable s) (a : Nat) (x : T)
    (ha : s.cell a = none) (a0 : a ≠ 0) (aw : a < WORD) (xs : List T) (fuel : Nat)
    (hw : forward_walk s fuel = some (.ok xs)) :
    (push_front a x s).1 = .ok () ∧
      (∀ f, xs.length + 1 < f → forward_walk (push_front a x s).2 f = some (.ok (x :: xs))) ∧
      size (push_front a x s).2 = size s + 1 := by
  obtain ⟨es, hs⟩ := hr.shape
  obtain ⟨rfl, -⟩ := hs.of_walk hw
  obtain ⟨h1, h2, -⟩ := push_front_shape hs x (hs.fresh ha) a0 aw
  refine ⟨h1, fun f hf => ?_, ?_⟩
  · rw [forward_walk_shape h2]
    simp at hf
    simp [hf]
  · simp [size, h2.count, hs.count]

theorem push_front_spec_witness :
    (Reachable (ctor 16 32 : State Nat) ∧ (ctor 16 32 : State Nat).cell 48 = none ∧
      (48 : Nat) ≠ 0 ∧ 48 < WORD ∧ forward_walk (ctor 16 32 : State Nat) 1 = some (.ok [])) ∧
    forward_walk (push_front 48 7 (ctor 16 32 : State Nat)).2 2 = some (.ok [7]) :=
  ⟨⟨Reachable.init 16 32 (by decide) (by decide) (by decide) (by decide) (by decide),
      by decide, by decide, by decide, by decide⟩,
    (push_front_spec (ctor 16 32 : State Nat)
      (Reachable.init 16 32 (by decide) (by decide) (by decide) (by decide) (by decide))
      48 7 (by decide) (by decide) (by decide) [] 1 (by decide)).2.1 2 (by decide)⟩

theorem reachable_ctor_example : Reachable (ctor 16 32 : State Nat) :=
  Reachable.init 16 32 (by decide) (by decide) (by decide) (by decide) (by decide)

theorem reachable_push_example : Reachable (push_front 48 7 (ctor 16 32 : State Nat)).2 :=
  Reachable.pushFront 48 7 reachable_ctor_example (by decide) (by decide) (by decide)

/-- Claim C3: on every reachable non-empty list whose forward traversal yields `xs`,
`pop_front()` succeeds and leaves the traversal `xs` without its first element, `pop_back()`
succeeds and leaves `xs` without its last element, and each lowers `size()` by exactly one. -/
theorem pop_spec (s : State T) (hr : Reachable s) (xs : List T) (fuel : Nat)
    (hw : forward_walk s fuel = some (.ok xs)) (hne : xs ≠ []) :
    ((pop_front s).1 = .ok () ∧
        (∀ f, xs.tail.length < f → forward_walk (pop_front s).2 f = some (.ok xs.tail)) ∧
        size (pop_front s).2 + 1 = size s) ∧
      ((pop_back s).1 = .ok () ∧
        (∀ f, xs.dropLast.length < f →
          forward_walk (pop_back s).2 f = some (.ok xs.dropLast)) ∧
        size (pop_back s).2 + 1 = size s) := by
  obtain ⟨es, hs⟩ := hr.shape
  obtain ⟨rfl, -⟩ := hs.of_walk hw
  constructor
  · cases es with
    | nil => simp at hne
    | cons e r =>
      obtain ⟨h1, h2, -⟩ := pop_front_shape hs
      refine ⟨h1, fun f hf => ?_, ?_⟩
      · rw [forward_walk_shape h2]
        simp at hf
        simp [hf]
      · simp [size, h2.count, hs.count]
  · rcases List.eq_nil_or_concat es with rfl | ⟨r, e, rfl⟩
    · simp at hne
    · have hs2 : Shape s (r ++ [e]) := by simpa using hs
      obtain ⟨h1, h2, -⟩ := pop_back_shape hs2
      refine ⟨h1, fun f hf => ?_, ?_⟩
      · rw [forward_walk_shape h2]
        simp at hf
        simp [hf]
      · simp [size, h2.count, hs.count]

theorem pop_spec_witness :
    (Reachable (push_front 48 7 (ctor 16 32 : State Nat)).2 ∧
      forward_walk (push_front 48 7 (ctor 16 32 : State Nat)).2 2 = some (.ok [7]) ∧
      ([7] : List Nat) ≠ []) ∧
    (pop_front (push_front 48 7 (ctor 16 32 : State Nat)).2).1 = .ok () ∧
    (pop_back (push_front 48 7 (ctor 16 32 : State Nat)).2).1 = .ok () :=
  ⟨⟨reachable_push_example, by decide, by decide⟩,
    (pop_spec _ reachable_push_example [7] 2 (by decide) (by decide)).1.1,
    (pop_spec _ reachable_push_example [7] 2 (by decide) (by decide)).2.1⟩

/-- Claim C4: on every reachable non-empty list `front()` returns the first element of the
forward traversal and `back()` the last one, both leaving the state untouched; and on every
reachable list `front()` called right after `push_front(x)` returns `x`. -/
theorem front_back_spec (s : State T) (hr : Reachable s) (xs : List T) (fuel : Nat)
    (hw : forward_walk s fuel = some (.ok xs)) :
    (∀ hne : xs ≠ [],
        front s = (.ok (xs.head hne), s) ∧ back s = (.ok (xs.getLast hne), s)) ∧
      ∀ (a : Nat) (x : T), s.cell a = none → a ≠ 0 → a < WORD →
        (front (push_front a x s).2).1 = .ok x := by
  obtain ⟨es, hs⟩ := hr.shape
  obtain ⟨rfl, -⟩ := hs.of_walk hw
  constructor
  · intro hne
    constructor
    · cases es with
      | nil => simp at hne
      | cons e r => rw [front_shape hs]; rfl
    · rcases List.eq_nil_or_concat es with rfl | ⟨r, e, rfl⟩
      · simp at hne
      · have hs2 : Shape s (r ++ [e]) := by simpa using hs
        rw [back_shape hs2]
        simp
  · intro a x ha a0 aw
    rw [front_shape (push_front_shape hs x (hs.fresh ha) a0 aw).2.1]

theorem front_back_spec_witness :
    (Reachable (push_front 48 7 (ctor 16 32 : State Nat)).2 ∧
      forward_walk (push_front 48 7 (ctor 16 32 : State Nat)).2 2 = some (.ok [7])) ∧
    (front (push_front 48 7 (ctor 16 32 : State Nat)).2).1 = .ok 7 :=
  ⟨⟨reachable_push_example, by decide⟩,
    congrArg Prod.fst
      ((front_back_spec _ reachable_push_example [7] 2 (by decide)).1 (by decide)).1⟩

/-- Claim C5: on every reachable list whose forward traversal yields `xs`, each of `front()`,
`back()`, `pop_front()` and `pop_back()` raises the empty-list error exactly when `xs` is
empty, and whenever one of them raises it the whole state (size, sentinels, every cell) is
the state before the call; the size is then `0`. -/
theorem empty_error_spec (s : State T) (hr : Reachable s) (xs : List T) (fuel : Nat)
    (hw : forward_walk s fuel = some (.ok xs)) :
    (((front s).1 = .threw .empty ↔ xs = []) ∧ ((back s).1 = .threw .empty ↔ xs = []) ∧
        ((pop_front s).1 = .threw .empty ↔ xs = []) ∧
        ((pop_back s).1 = .threw .empty ↔ xs = [])) ∧
      (((front s).1 = .threw .empty → (front s).2 = s ∧ size s = 0) ∧
        ((back s).1 = .threw .empty → (back s).2 = s ∧ size s = 0) ∧
        ((pop_front s).1 = .threw .empty → (pop_front s).2 = s ∧ size s = 0) ∧
        ((pop_back s).1 = .threw .empty → (pop_back s).2 = s ∧ size s = 0)) := by
  obtain ⟨es, hs⟩ := hr.shape
  obtain ⟨rfl, -⟩ := hs.of_walk hw
  rcases List.eq_nil_or_concat es with rfl | ⟨r, e, rfl⟩
  · have hz : size s = 0 := by simp [size, hs.count]
    simp [front_empty hs, back_empty hs, pop_front_empty hs, pop_back_empty hs, hz]
  · have hs2 : Shape s (r ++ [e]) := by simpa using hs
    have hb := back_shape hs2
    have hpb := (pop_back_shape hs2).1
    cases r with
    | nil =>
      have hf := front_shape hs2
      have hpf := (pop_front_shape hs2).1
      simp [hf, hb, hpf, hpb]
    | cons e2 r2 =>
      have hs3 : Shape s (e2 :: (r2 ++ [e])) := hs2
      have hf := front_shape hs3
      have hpf := (pop_front_shape hs3).1
      simp [hf, hb, hpf, hpb]

theorem empty_error_spec_witness :
    (Reachable (ctor 16 32 : State Nat) ∧
      forward_walk (ctor 16 32 : State Nat) 1 = some (.ok [])) ∧
    ((pop_front (ctor 16 32 : State Nat)).1 = .threw .empty ↔ ([] : List Nat) = []) :=
  ⟨⟨reachable_ctor_example, by decide⟩,
    (empty_error_spec _ reachable_ctor_example [] 1 (by decide)).1.2.2.1⟩

/-- Claim C6: in every state reached from the constructor by any interleaving of the pushes
and pops (failed pops included; `reverse` is allowed as well), `size()` equals the number of
elements a full forward traversal produces, which is the number of `++` advances that take
`begin()` to a cursor equal to `end()`. -/
theorem size_invariant (s : State T) (hr : Reachable s) :
    (∀ fuel xs, forward_walk s fuel = some (.ok xs) → xs.length = size s) ∧
      ∀ fuel, size s < fuel →
        (∃ xs, forward_walk s fuel = some (.ok xs) ∧ xs.length = size s) ∧
          forward_advances s fuel = some (.ok (size s)) := by
  obtain ⟨es, hs⟩ := hr.shape
  constructor
  · intro fuel xs hw
    obtain ⟨rfl, -⟩ := hs.of_walk hw
    simp [size, hs.count]
  · intro fuel hf
    have hf2 : es.length < fuel := by simpa [size, hs.count] using hf
    rw [forward_walk_shape hs, forward_advances_shape hs]
    simp [hf2, size, hs.count]

theorem size_invariant_witness :
    Reachable (push_front 48 7 (ctor 16 32 : State Nat)).2 ∧
    forward_advances (push_front 48 7 (ctor 16 32 : State Nat)).2 2 =
      some (.ok (size (push_front 48 7 (ctor 16 32 : State Nat)).2)) :=
  ⟨reachable_push_example, ((size_invariant _ reachable_push_example).2 2 (by decide)).2⟩


/-- Claim C7: on every reachable list whose forward traversal yields `xs`, the same loop
(the same `walk`, hence the same `++`) started at `rbegin()` and run until the cursor equals
`rend()` dereferences exactly the reverse of `xs`. -/
theorem backward_walk_spec (s : State T) (hr : Reachable s) (xs : List T) (fuel : Nat)
    (hw : forward_walk s fuel = some (.ok xs)) :
    ∀ f, xs.length < f →
      backward_walk s f = some (.ok xs.reverse) ∧
        ∃ b e, rbegin s = .ok b ∧ rend s = .ok e ∧ walk s f b e = some (.ok xs.reverse) := by
  obtain ⟨es, hs⟩ := hr.shape
  obtain ⟨rfl, -⟩ := hs.of_walk hw
  intro f hf
  have hb : backward_walk s f = some (.ok (es.map Prod.snd).reverse) := by
    rw [backward_walk_shape hs]
    simp at hf
    simp [hf]
  refine ⟨hb, { cur := lastOr es s.head, prev := s.tail, forward := true },
    { cur := s.head, prev := hdOr es s.tail, forward := true }, ?_, ?_, ?_⟩
  · simp only [rbegin, hs.tail_cell]
  · simp only [rend, hs.head_cell]
  · simpa only [backward_walk, rbegin, rend, hs.tail_cell, hs.head_cell] using hb

theorem backward_walk_spec_witness :
    (Reachable (push_back 64 9 (push_front 48 7 (ctor 16 32 : State Nat)).2).2 ∧
      forward_walk (push_back 64 9 (push_front 48 7 (ctor 16 32 : State Nat)).2).2 3 =
        some (.ok [7, 9])) ∧
    backward_walk (push_back 64 9 (push_front 48 7 (ctor 16 32 : State Nat)).2).2 3 =
      some (.ok [9, 7]) :=
  ⟨⟨Reachable.pushBack 64 9 reachable_push_example (by decide) (by decide) (by decide),
      by decide⟩,
    (backward_walk_spec _
      (Reachable.pushBack 64 9 reachable_push_example (by decide) (by decide) (by decide))
      [7, 9] 3 (by decide) 3 (by decide)).1⟩

/-- Claim C8: on every reachable list whose forward traversal yields `xs`, after one call
to `reverse()` the forward traversal from `begin()` to `end()` yields exactly the reverse of
`xs`, and `size()` is unchanged. -/
theorem reverse_spec (s : State T) (hr : Reachable s) (xs : List T) (fuel : Nat)
    (hw : forward_walk s fuel = some (.ok xs)) :
    (∀ f, xs.length < f → forward_walk (reverse s) f = some (.ok xs.reverse)) ∧
      size (reverse s) = size s := by
  obtain ⟨es, hs⟩ := hr.shape
  obtain ⟨rfl, -⟩ := hs.of_walk hw
  refine ⟨fun f hf => ?_, rfl⟩
  rw [forward_walk_shape hs.rev]
  simp at hf
  simp [hf]

theorem reverse_spec_witness :
    (Reachable (push_back 64 9 (push_front 48 7 (ctor 16 32 : State Nat)).2).2 ∧
      forward_walk (push_back 64 9 (push_front 48 7 (ctor 16 32 : State Nat)).2).2 3 =
        some (.ok [7, 9])) ∧
    forward_walk (reverse (push_back 64 9 (push_front 48 7 (ctor 16 32 : State Nat)).2).2) 3 =
      some (.ok [9, 7]) :=
  ⟨⟨Reachable.pushBack 64 9 reachable_push_example (by decide) (by decide) (by decide),
      by decide⟩,
    (reverse_spec _
      (Reachable.pushBack 64 9 reachable_push_example (by decide) (by decide) (by decide))
      [7, 9] 3 (by decide)).1 3 (by decide)⟩

/-- Claim C9: on every reachable list (empty or not), `push_front(x)` into a fresh node
followed by `pop_front()` succeeds twice and gives back the prior `size()`, the prior
forward traversal, the prior sentinels, and the prior contents of every cell of the store
(so every link field of the sentinels and of the pre-existing nodes has its prior value). -/
theorem push_pop_front_restores (s : State T) (hr : Reachable s) (a : Nat) (x : T)
    (ha : s.cell a = none) (a0 : a ≠ 0) (aw : a < WORD) :
    (push_front a x s).1 = .ok () ∧ (pop_front (push_front a x s).2).1 = .ok () ∧
      size (pop_front (push_front a x s).2).2 = size s ∧
      (∀ f, forward_walk (pop_front (push_front a x s).2).2 f = forward_walk s f) ∧
      (pop_front (push_front a x s).2).2.cell = s.cell ∧
      (pop_front (push_front a x s).2).2.head = s.head ∧
      (pop_front (push_front a x s).2).2.tail = s.tail := by
  obtain ⟨es, hs⟩ := hr.shape
  obtain ⟨p1, p2, p3, p4, -, p6⟩ := push_front_shape hs x (hs.fresh ha) a0 aw
  obtain ⟨q1, q2, q3, q4, -, q6, q7⟩ := pop_front_shape p2
  refine ⟨p1, q1, ?_, fun f => ?_, ?_, q3.trans p3, q4.trans p4⟩
  · simp [size, q2.count, hs.count]
  · rw [forward_walk_shape q2, forward_walk_shape hs]
  · funext b
    by_cases hba : b = a
    · rw [hba, ha]
      exact q6
    by_cases hbh : b = s.head
    · have := q2.head_cell
      rw [q3, q4, p3, p4] at this
      rw [hbh, this, hs.head_cell]
    by_cases hbn : b = hdOr es s.tail
    · cases es with
      | nil =>
        have := q2.tail_cell
        rw [q3, q4, p3, p4] at this
        rw [hbn]
        simp only [hdOr]
        rw [this, hs.tail_cell]
      | cons e r =>
        have := q2.seg.1
        rw [q3, q4, p3, p4] at this
        rw [hbn]
        simp only [hdOr]
        rw [this, hs.seg.1]
    · rw [q7 b (by rwa [p3]) hba (by rwa [p4]), p6 b hbh hba hbn]

theorem push_pop_front_restores_witness :
    (Reachable (push_front 48 7 (ctor 16 32 : State Nat)).2 ∧
      (push_front 48 7 (ctor 16 32 : State Nat)).2.cell 64 = none ∧ (64 : Nat) ≠ 0 ∧
      64 < WORD) ∧
    (pop_front (push_front 64 9 (push_front 48 7 (ctor 16 32 : State Nat)).2).2).2.cell =
      (push_front 48 7 (ctor 16 32 : State Nat)).2.cell :=
  ⟨⟨reachable_push_example, by decide, by decide, by decide⟩,
    (push_pop_front_restores _ reachable_push_example 64 9 (by decide) (by decide)
      (by decide)).2.2.2.2.1⟩

/-- Claim C10 (the code departs from it): on a freshly constructed list `clear()` passes the
head sentinel to `delete` and then reads the released node; on the list built by the test
program it releases nothing, so all three element nodes stay live while the sentinels are
reset and the size is set to `0`. -/
theorem clear_releases_wrong_nodes :
    ((clear 4 (ctor 16 32 : State Nat)).map fun r => (r.1, r.2.freed, r.2.cell 16 == none)) =
        some (.fault, [16], true) ∧
      ((clear 4
            (push_back 96 3 (push_front 64 1 (push_back 48 2
              (ctor 16 32 : State Nat)).2).2).2).map
          fun r => (r.1, r.2.freed, r.2.num_nodes,
            (r.2.cell 64).isSome, (r.2.cell 48).isSome, (r.2.cell 96).isSome)) =
        some (.ok (), [], 0, true, true, true) := by
  constructor <;> decide


/-! ## Further facts about well-formed states -/

theorem hdOr_mem (es : List (Nat × T)) (d : Nat) : hdOr es d ∈ d :: es.map Prod.fst := by
  cases es <;> simp [hdOr]

theorem lastOr_mem (es : List (Nat × T)) (d : Nat) : lastOr es d ∈ d :: es.map Prod.fst := by
  induction es generalizing d with
  | nil => simp [lastOr]
  | cons e r ih =>
    have := ih e.1
    simp only [lastOr, List.map_cons, List.mem_cons] at this ⊢
    tauto

theorem Seg.split {cell : Nat → Option (xll_node T)} {p n : Nat} {pre post : List (Nat × T)}
    {e : Nat × T} (h : Seg cell p (pre ++ e :: post) n) :
    cell e.1 = some { ptr := lastOr pre p ^^^ hdOr post n, data := some e.2 } := by
  induction pre generalizing p with
  | nil => exact h.1
  | cons f r ih => exact ih h.2

theorem foldl_release_freed (l : List Nat) (s : State T) :
    (l.foldl State.release s).freed = s.freed ++ l := by
  induction l generalizing s with
  | nil => simp
  | cons a r ih => simp [ih]

theorem foldl_release_cell (l : List Nat) (s : State T) (b : Nat) :
    (l.foldl State.release s).cell b = if b ∈ l then none else s.cell b := by
  induction l generalizing s with
  | nil => simp
  | cons a r ih =>
    simp only [List.foldl_cons, ih, release_cell, List.mem_cons]
    by_cases h1 : b ∈ r <;> by_cases h2 : b = a <;> simp [h1, h2]

theorem dtor_loop_seg (s : State T) {p t : Nat} {es : List (Nat × T)} {np nt : xll_node T}
    (hseg : Seg s.cell p es t) (hp : s.cell p = some np) (ht : s.cell t = some nt)
    (hnt : nt.ptr = lastOr es p) (hnd : (p :: t :: es.map Prod.fst).Nodup)
    (hnz : ∀ a ∈ t :: es.map Prod.fst, a ≠ 0) (fuel : Nat) :
    dtor_loop fuel s (hdOr es t) p =
      if es.length < fuel then some (.ok (), (p :: es.map Prod.fst).foldl State.release s)
      else none := by
  induction es generalizing s p np fuel with
  | nil =>
    cases fuel with
    | zero => simp [dtor_loop]
    | succ k => simp [dtor_loop, hdOr, lastOr, ht, hp, (show nt.ptr = p from hnt)]
  | cons e r ih =>
    cases fuel with
    | zero => simp [dtor_loop]
    | succ k =>
      have hcell := hseg.1
      simp only [List.map_cons, List.nodup_cons, List.mem_cons, not_or] at hnd
      obtain ⟨⟨hpt, hpe, hpr⟩, ⟨hte, htr⟩, her, hr⟩ := hnd
      have hnext : hdOr r t ≠ 0 := hnz _ (by
        have := hdOr_mem r t
        simp only [List.map_cons, List.mem_cons] at this ⊢
        tauto)
      have hseg2 : Seg (s.release p).cell e.1 r t := by
        refine hseg.2.frame fun f hf => ?_
        have : f.1 ≠ p := fun q => hpr (q ▸ List.mem_map_of_mem _ hf)
        simp [this]
      have hrec := @ih (s.release p) e.1 { ptr := p ^^^ hdOr r t, data := some e.2 }
        hseg2 (by simp [Ne.symm hpe, hcell]) (by simp [Ne.symm hpt, ht])
        (by simpa [lastOr] using hnt)
        (by simp [hte, Ne.symm hte, htr, her, hr])
        (fun a ha => hnz a (by simp only [List.map_cons, List.mem_cons] at ha ⊢; tauto)) k
      show dtor_loop (k + 1) s e.1 p = _
      simp only [dtor_loop, hcell, hp, Nat.xor_cancel_left, hnext, if_false, hrec,
        List.length_cons, Nat.add_lt_add_iff_right, List.map_cons, List.foldl_cons]

theorem dtor_shape {s : State T} {es : List (Nat × T)} (h : Shape s es) (fuel : Nat) :
    dtor fuel s =
      if es.length < fuel then
        some (.ok (), (s.head :: es.map Prod.fst).foldl State.release s)
      else none := by
  have h0 := h.nonzero
  have hh0 : s.head ≠ 0 := h0 _ (by simp)
  have ht0 : s.tail ≠ 0 := h0 _ (by simp)
  simp only [dtor, hh0, ht0, ne_eq, not_false_eq_true, and_self, if_true, h.head_cell]
  exact dtor_loop_seg s h.seg h.head_cell h.tail_cell rfl h.nodup
    (fun a ha => h0 a (List.mem_cons_of_mem _ ha)) fuel


/-- The store holds no live node besides the nodes of the list. -/
theorem Reachable.shape_closed {s : State T} (h : Reachable s) :
    ∃ es, Shape s es ∧ ∀ b, s.cell b ≠ none → b ∈ s.head :: s.tail :: es.map Prod.fst := by
  induction h with
  | init h t h0 t0 hne hw tw =>
    refine ⟨[], ctor_shape h0 t0 hne hw tw, fun b hb => ?_⟩
    by_cases h1 : b = h
    · simp [ctor, h1]
    by_cases h2 : b = t
    · simp [ctor, h2]
    · simp [ctor, h1, h2] at hb
  | @pushFront s a x _ ha a0 aw ih =>
    obtain ⟨es, hs, hcl⟩ := ih
    obtain ⟨-, h2, h3, h4, -, h6⟩ := push_front_shape hs x (hs.fresh ha) a0 aw
    refine ⟨_, h2, fun b hb => ?_⟩
    rw [h3, h4]
    by_cases e1 : b = s.head
    · simp [e1]
    by_cases e2 : b = a
    · simp [e2]
    by_cases e3 : b = hdOr es s.tail
    · have := hdOr_mem es s.tail
      rw [← e3] at this
      simp only [List.map_cons, List.mem_cons] at this ⊢
      tauto
    · rw [h6 b e1 e2 e3] at hb
      have := hcl b hb
      simp only [List.map_cons, List.mem_cons] at this ⊢
      tauto
  | @pushBack s a x _ ha a0 aw ih =>
    obtain ⟨es, hs, hcl⟩ := ih
    obtain ⟨-, h2, h3, h4, -, h6⟩ := push_back_shape hs x (hs.fresh ha) a0 aw
    refine ⟨_, h2, fun b hb => ?_⟩
    rw [h3, h4]
    by_cases e1 : b = s.tail
    · simp [e1]
    by_cases e2 : b = a
    · simp [e2]
    by_cases e3 : b = lastOr es s.head
    · have := lastOr_mem es s.head
      rw [← e3] at this
      simp only [List.map_append, List.map_cons, List.map_nil, List.mem_cons,
        List.mem_append] at this ⊢
      tauto
    · rw [h6 b e1 e2 e3] at hb
      have := hcl b hb
      simp only [List.map_append, List.map_cons, List.map_nil, List.mem_cons,
        List.mem_append] at this ⊢
      tauto
  | @popFront s _ ih =>
    obtain ⟨es, hs, hcl⟩ := ih
    cases es with
    | nil =>
      refine ⟨[], ?_, ?_⟩ <;> rw [pop_front_empty hs]
      · exact hs
      · exact hcl
    | cons e r =>
      obtain ⟨-, h2, h3, h4, -, h6, h7⟩ := pop_front_shape hs
      refine ⟨r, h2, fun b hb => ?_⟩
      rw [h3, h4]
      by_cases e1 : b = s.head
      · simp [e1]
      by_cases e2 : b = e.1
      · rw [e2] at hb
        exact absurd h6 hb
      by_cases e3 : b = hdOr r s.tail
      · have := hdOr_mem r s.tail
        rw [← e3] at this
        simp only [List.mem_cons] at this ⊢
        tauto
      · rw [h7 b e1 e2 e3] at hb
        have := hcl b hb
        simp only [List.map_cons, List.mem_cons] at this ⊢
        tauto
  | @popBack s _ ih =>
    obtain ⟨es, hs, hcl⟩ := ih
    rcases List.eq_nil_or_concat es with rfl | ⟨r, e, rfl⟩
    · refine ⟨[], ?_, ?_⟩ <;> rw [pop_back_empty hs]
      · exact hs
      · exact hcl
    · have hs2 : Shape s (r ++ [e]) := by simpa using hs
      obtain ⟨-, h2, h3, h4, -, h6, h7⟩ := pop_back_shape hs2
      refine ⟨r, h2, fun b hb => ?_⟩
      rw [h3, h4]
      by_cases e1 : b = s.tail
      · simp [e1]
      by_cases e2 : b = e.1
      · rw [e2] at hb
        exact absurd h6 hb
      by_cases e3 : b = lastOr r s.head
      · have := lastOr_mem r s.head
        rw [← e3] at this
        simp only [List.mem_cons] at this ⊢
        tauto
      · rw [h7 b e1 e2 e3] at hb
        have := hcl b hb
        simp only [List.concat_eq_append, List.map_append, List.map_cons, List.map_nil,
          List.mem_cons, List.mem_append, List.mem_singleton] at this ⊢
        tauto
  | @rev s _ ih =>
    obtain ⟨es, hs, hcl⟩ := ih
    refine ⟨_, hs.rev, fun b hb => ?_⟩
    have := hcl b hb
    simp only [List.mem_cons, reverse_head, reverse_tail, List.map_reverse,
      List.mem_reverse] at this ⊢
    tauto

theorem walk_congr {s s2 : State T} (hc : s2.cell = s.cell) (fuel : Nat)
    (a b : const_iterator) : walk s2 fuel a b = walk s fuel a b := by
  induction fuel generalizing a with
  | zero => rfl
  | succ k ih =>
    simp only [walk, ih, const_iterator.deref, const_iterator.inc, const_iterator.iterate, hc]

theorem forward_walk_congr {s s2 : State T} (hc : s2.cell = s.cell) (hh : s2.head = s.head)
    (ht : s2.tail = s.tail) (fuel : Nat) : forward_walk s2 fuel = forward_walk s fuel := by
  simp only [forward_walk, begin_, end_, hc, hh, ht, walk_congr hc]


/-- Claim C11 (the code departs from it): on every reachable list the destructor, given
enough fuel, returns normally after releasing the head sentinel and the element nodes, once
each and in list order, and nothing else; the tail sentinel is not among the released
addresses and is still live afterwards. -/
theorem dtor_leaks_tail (s : State T) (hr : Reachable s) :
    ∃ es : List (Nat × T),
      (∀ f, es.length < f → forward_walk s f = some (.ok (es.map Prod.snd))) ∧
      ∀ fuel, es.length < fuel →
        ∃ s2, dtor fuel s = some (.ok (), s2) ∧
          s2.freed = s.freed ++ s.head :: es.map Prod.fst ∧
          (s.head :: es.map Prod.fst).Nodup ∧
          s.tail ∉ s.head :: es.map Prod.fst ∧
          s2.cell s.tail = s.cell s.tail ∧ s.cell s.tail ≠ none := by
  obtain ⟨es, hs⟩ := hr.shape
  refine ⟨es, fun f hf => by rw [forward_walk_shape hs]; simp [hf], fun fuel hf => ?_⟩
  have hnd := hs.nodup
  have hnt : s.tail ∉ s.head :: es.map Prod.fst := by
    simp only [List.nodup_cons, List.mem_cons, not_or] at hnd ⊢
    exact ⟨fun q => hnd.1.1 q.symm, hnd.2.1⟩
  refine ⟨_, by rw [dtor_shape hs]; simp [hf], foldl_release_freed _ _, ?_, hnt, ?_, ?_⟩
  · simp only [List.nodup_cons, List.mem_cons, not_or] at hnd ⊢
    exact ⟨hnd.1.2, hnd.2.2⟩
  · rw [foldl_release_cell, if_neg hnt]
  · rw [hs.tail_cell]
    simp

theorem dtor_leaks_tail_witness :
    Reachable (ctor 16 32 : State Nat) ∧
    (∃ es : List (Nat × Nat),
      (∀ f, es.length < f →
        forward_walk (ctor 16 32 : State Nat) f = some (.ok (es.map Prod.snd))) ∧
      ∀ fuel, es.length < fuel →
        ∃ s2, dtor fuel (ctor 16 32 : State Nat) = some (.ok (), s2) ∧
          s2.freed = (ctor 16 32 : State Nat).freed ++
            (ctor 16 32 : State Nat).head :: es.map Prod.fst ∧
          ((ctor 16 32 : State Nat).head :: es.map Prod.fst).Nodup ∧
          (ctor 16 32 : State Nat).tail ∉ (ctor 16 32 : State Nat).head :: es.map Prod.fst ∧
          s2.cell (ctor 16 32 : State Nat).tail =
            (ctor 16 32 : State Nat).cell (ctor 16 32 : State Nat).tail ∧
          (ctor 16 32 : State Nat).cell (ctor 16 32 : State Nat).tail ≠ none) ∧
    ((dtor 1 (ctor 16 32 : State Nat)).map fun r =>
        (r.1, r.2.freed, (r.2.cell 16).isSome, (r.2.cell 32).isSome)) =
      some (.ok (), [16], false, true) :=
  ⟨reachable_ctor_example, dtor_leaks_tail _ reachable_ctor_example, by decide⟩

/-- On a freshly constructed list the cursor `end()` stands on the tail sentinel, and
dereferencing it raises no error: `cur` is not null, so `CHK_NULL(cur)` passes and the null
`data` pointer is read. -/
theorem deref_end_raises_nothing :
    end_ (ctor 16 32 : State Nat) = .ok { cur := 32, prev := 16, forward := true } ∧
    const_iterator.deref (ctor 16 32 : State Nat) { cur := 32, prev := 16, forward := true } =
      .fault ∧
    ¬ ∃ e, const_iterator.deref (ctor 16 32 : State Nat)
      { cur := 32, prev := 16, forward := true } = .threw e := by
  refine ⟨by decide, by decide, ?_⟩
  rintro ⟨e, he⟩
  have hf : const_iterator.deref (ctor 16 32 : State Nat)
      { cur := 32, prev := 16, forward := true } = .fault := by decide
  rw [hf] at he
  cases he

/-- Claim C12 (the code departs from it): on every reachable list, dereferencing a cursor
that stands on a sentinel (`end()`, `rend()`, `begin()` of an empty list) raises no error:
`CHK_NULL(cur)` passes, since `cur` is not null, and the sentinel's null `data` pointer is
read. The guarded case is only a null current position, which raises the reported error.
Dereferencing a cursor at an element node (a live node other than the sentinels) returns
that node's payload, as the claim says. -/
theorem deref_spec (s : State T) (hr : Reachable s) :
    (∀ it : const_iterator, it.cur = 0 → it.deref s = .threw .null_ptr) ∧
      (∀ it : const_iterator, it.cur = s.head ∨ it.cur = s.tail → it.deref s = .fault) ∧
      (∀ e, end_ s = .ok e → e.deref s = .fault) ∧
      (∀ e, rend s = .ok e → e.deref s = .fault) ∧
      (∀ it : const_iterator, s.cell it.cur ≠ none → it.cur ≠ s.head → it.cur ≠ s.tail →
        ∃ nd v, s.cell it.cur = some nd ∧ nd.data = some v ∧ it.deref s = .ok v) := by
  obtain ⟨es, hs, hcl⟩ := hr.shape_closed
  have hh0 : s.head ≠ 0 := hs.nonzero _ (by simp)
  have ht0 : s.tail ≠ 0 := hs.nonzero _ (by simp)
  have hsent : ∀ it : const_iterator, it.cur = s.head ∨ it.cur = s.tail →
      it.deref s = .fault := by
    rintro it (h | h)
    · simp [const_iterator.deref, h, hh0, hs.head_cell]
    · simp [const_iterator.deref, h, ht0, hs.tail_cell]
  refine ⟨fun it h => by simp [const_iterator.deref, h], hsent, ?_, ?_, ?_⟩
  · intro e he
    simp only [end_, hs.tail_cell, Status.ok.injEq] at he
    exact hsent e (Or.inr (by rw [← he]))
  · intro e he
    simp only [rend, hs.head_cell, Status.ok.injEq] at he
    exact hsent e (Or.inl (by rw [← he]))
  · intro it hlive hnh hnt
    have hm := hcl _ hlive
    simp only [List.mem_cons, List.mem_map] at hm
    rcases hm with h | h | ⟨e, he, h⟩
    · exact absurd h hnh
    · exact absurd h hnt
    · obtain ⟨pre, post, rfl⟩ := List.append_of_mem he
      have hc := hs.seg.split
      rw [h] at hc
      have h0 : it.cur ≠ 0 := by
        rw [← h]
        exact hs.nonzero _ (by simp)
      exact ⟨_, e.2, hc, rfl, by simp [const_iterator.deref, h0, hc]⟩

theorem deref_spec_witness :
    Reachable (ctor 16 32 : State Nat) ∧
    end_ (ctor 16 32 : State Nat) = .ok { cur := 32, prev := 16, forward := true } ∧
    const_iterator.deref (ctor 16 32 : State Nat)
      { cur := 32, prev := 16, forward := true } = .fault :=
  ⟨reachable_ctor_example, by decide,
    (deref_spec _ reachable_ctor_example).2.2.1 { cur := 32, prev := 16, forward := true }
      (by decide)⟩

/-- Claim C13: `reverse()` writes no cell of the store (no link field, no payload), not the
size and releases nothing; it only exchanges the two sentinel members; calling it twice
gives back the very same state, hence the same forward traversal. -/
theorem reverse_frame (s : State T) :
    (reverse s).cell = s.cell ∧ (reverse s).num_nodes = s.num_nodes ∧
      (reverse s).freed = s.freed ∧ (reverse s).head = s.tail ∧ (reverse s).tail = s.head ∧
      reverse (reverse s) = s ∧
      ∀ f, forward_walk (reverse (reverse s)) f = forward_walk s f :=
  ⟨rfl, rfl, rfl, rfl, rfl, rfl, fun _ => rfl⟩

/-- Claim C14: on a cursor whose flag is forward, `--it` followed by `++it` gives back the
same current, arrived-from and flag, and symmetrically `++it` then `--it` on a cursor whose
flag is backward; the steps are the same over every store, even one with no live node, so
neither reads a link field. -/
theorem flip_pair_noop (s : State T) (c p : Nat) :
    const_iterator.dec s { cur := c, prev := p, forward := true } =
        .ok { cur := p, prev := c, forward := false } ∧
      const_iterator.inc s { cur := p, prev := c, forward := false } =
        .ok { cur := c, prev := p, forward := true } ∧
      const_iterator.inc s { cur := c, prev := p, forward := false } =
        .ok { cur := p, prev := c, forward := true } ∧
      const_iterator.dec s { cur := p, prev := c, forward := true } =
        .ok { cur := c, prev := p, forward := false } :=
  ⟨rfl, rfl, rfl, rfl⟩

/-- Claim C15: `a == b` holds exactly when both `current` and `arrived_from` match, the
direction flag takes no part, `a != b` is its negation, and two cursors at the same node
are equal only if they arrived from the same neighbour. -/
theorem iterator_eq_spec (a b : const_iterator) :
    (a.eq b = true ↔ a.cur = b.cur ∧ a.prev = b.prev) ∧
      (a.ne b = !(a.eq b)) ∧
      (∀ fa fb : Bool,
        const_iterator.eq { cur := a.cur, prev := a.prev, forward := fa }
          { cur := b.cur, prev := b.prev, forward := fb } = a.eq b) ∧
      ∀ (c p q : Nat) (fa fb : Bool),
        (const_iterator.eq { cur := c, prev := p, forward := fa }
          { cur := c, prev := q, forward := fb } = true ↔ p = q) := by
  refine ⟨by simp [const_iterator.eq], rfl, fun _ _ => rfl, fun c p q fa fb => ?_⟩
  simp [const_iterator.eq]


theorem Shape.hdOr_eq_tail {s : State T} {es : List (Nat × T)} (h : Shape s es) :
    hdOr es s.tail = s.tail ↔ es = [] := by
  cases es with
  | nil => simp [hdOr]
  | cons e r =>
    have := (h.elem_ne e (List.mem_cons_self _ _)).1
    simp [hdOr, this]

theorem Shape.lastOr_eq_head {s : State T} {es : List (Nat × T)} (h : Shape s es) :
    lastOr es s.head = s.head ↔ es = [] := by
  have := h.rev.hdOr_eq_tail
  simpa [hdOr_reverse] using this

/-- Claim C16: in every reachable state there is a list `es` of element nodes, the ones the
forward traversal visits in order, such that each of them has link
`address(predecessor) XOR address(successor)` (the sentinels standing at the two ends),
`head.link` is the address of the first of them (of `tail` when there is none) and
`tail.link` the address of the last (of `head` when there is none); and
`head.link == address(tail)` iff `tail.link == address(head)` iff `size() == 0`. -/
theorem structural_invariant (s : State T) (hr : Reachable s) :
    ∃ es : List (Nat × T),
      (∀ f, es.length < f → forward_walk s f = some (.ok (es.map Prod.snd))) ∧
      s.cell s.head = some { ptr := hdOr es s.tail, data := none } ∧
      s.cell s.tail = some { ptr := lastOr es s.head, data := none } ∧
      (∀ pre e post, es = pre ++ e :: post →
        s.cell e.1 =
          some { ptr := lastOr pre s.head ^^^ hdOr post s.tail, data := some e.2 }) ∧
      (((s.cell s.head).map xll_node.ptr = some s.tail ↔
          (s.cell s.tail).map xll_node.ptr = some s.head) ∧
        ((s.cell s.tail).map xll_node.ptr = some s.head ↔ size s = 0)) := by
  obtain ⟨es, hs⟩ := hr.shape
  refine ⟨es, fun f hf => by rw [forward_walk_shape hs]; simp [hf], hs.head_cell, hs.tail_cell,
    ?_, ?_, ?_⟩
  · rintro pre e post rfl
    exact hs.seg.split
  · simp [hs.head_cell, hs.tail_cell, hs.hdOr_eq_tail, hs.lastOr_eq_head]
  · simp [hs.tail_cell, hs.lastOr_eq_head, size, hs.count]

theorem structural_invariant_witness :
    Reachable (push_front 48 7 (ctor 16 32 : State Nat)).2 ∧
    ∃ es : List (Nat × Nat),
      (∀ f, es.length < f →
        forward_walk (push_front 48 7 (ctor 16 32 : State Nat)).2 f =
          some (.ok (es.map Prod.snd))) ∧
      (push_front 48 7 (ctor 16 32 : State Nat)).2.cell
          (push_front 48 7 (ctor 16 32 : State Nat)).2.head =
        some { ptr := hdOr es (push_front 48 7 (ctor 16 32 : State Nat)).2.tail,
               data := none } :=
  ⟨reachable_push_example,
    (structural_invariant _ reachable_push_example).imp fun _ h => ⟨h.1, h.2.1⟩⟩

theorem push_front_relink {s : State T} {es : List (Nat × T)} (hs : Shape s es) {a : Nat}
    (x : T) (ha : a ∉ s.head :: s.tail :: es.map Prod.fst) (a0 : a ≠ 0) (aw : a < WORD) :
    InsertRelink s.cell (push_front a x s).2.cell s.head (hdOr es s.tail) a x := by
  obtain ⟨-, h2, h3, h4, -, h6⟩ := push_front_shape hs x ha a0 aw
  have hA := h2.head_cell
  have hN := h2.seg.1
  rw [h3, h4] at hA hN
  refine ⟨⟨_, hs.head_cell, ?_⟩, hN, ?_, h6⟩
  · rw [hA]
    simp [hdOr]
  · cases es with
    | nil =>
      have hB := h2.tail_cell
      rw [h3, h4] at hB
      refine ⟨_, hs.tail_cell, ?_⟩
      simp only [hdOr]
      rw [hB]
      simp [lastOr]
    | cons e r =>
      have hB := h2.seg.2.1
      rw [h4] at hB
      refine ⟨_, hs.seg.1, ?_⟩
      simp only [hdOr] at hB ⊢
      rw [hB, xor_cancel_mid, Nat.xor_comm]

theorem pop_front_relink {s : State T} {e : Nat × T} {r : List (Nat × T)}
    (hs : Shape s (e :: r)) :
    RemoveRelink s.cell (pop_front s).2.cell s.head e.1 (hdOr r s.tail) := by
  obtain ⟨-, h2, h3, h4, -, h6, h7⟩ := pop_front_shape hs
  have hA := h2.head_cell
  rw [h3, h4] at hA
  refine ⟨⟨_, hs.head_cell, ?_⟩, ?_, h6, h7⟩
  · rw [hA]
    simp [hdOr]
  · cases r with
    | nil =>
      have hC := h2.tail_cell
      rw [h3, h4] at hC
      refine ⟨_, hs.tail_cell, ?_⟩
      simp only [hdOr]
      rw [hC]
      simp [lastOr]
    | cons f r2 =>
      have hC := h2.seg.1
      rw [h3, h4] at hC
      refine ⟨_, hs.seg.2.1, ?_⟩
      simp only [hdOr] at hC ⊢
      rw [hC, xor_cancel_mid, Nat.xor_comm]

/-- Claim C17: on every reachable list, with `A` the sentinel and `B` the node `A.link`
points at, `push_front` / `push_back` of a fresh node `N` write exactly
`A.link := A.link XOR B XOR N`, `N.link := A XOR B`, `B.link := B.link XOR A XOR N`; and on
a non-empty list, with `R` the node `A.link` points at and `C = R.link XOR A` its other
neighbour, `pop_front` / `pop_back` write exactly `A.link := A.link XOR R XOR C`,
`C.link := C.link XOR R XOR A` and release `R`; payloads of the touched nodes and every
other cell are as before. -/
theorem relink_exact (s : State T) (hr : Reachable s) :
    ∃ hd tl, s.cell s.head = some hd ∧ s.cell s.tail = some tl ∧
      (∀ (a : Nat) (x : T), s.cell a = none → a ≠ 0 → a < WORD →
        InsertRelink s.cell (push_front a x s).2.cell s.head hd.ptr a x ∧
        InsertRelink s.cell (push_back a x s).2.cell s.tail tl.ptr a x) ∧
      (size s ≠ 0 →
        ∃ r1 r2, s.cell hd.ptr = some r1 ∧ s.cell tl.ptr = some r2 ∧
          RemoveRelink s.cell (pop_front s).2.cell s.head hd.ptr (r1.ptr ^^^ s.head) ∧
          RemoveRelink s.cell (pop_back s).2.cell s.tail tl.ptr (r2.ptr ^^^ s.tail)) := by
  obtain ⟨es, hs⟩ := hr.shape
  refine ⟨_, _, hs.head_cell, hs.tail_cell, fun a x ha a0 aw => ⟨?_, ?_⟩, fun hsz => ?_⟩
  · exact push_front_relink hs x (hs.fresh ha) a0 aw
  · have hfr : a ∉ (reverse s).head :: (reverse s).tail :: es.reverse.map Prod.fst :=
      hs.rev.fresh ha
    have := push_front_relink hs.rev x hfr a0 aw
    rw [push_back_eq]
    simpa [hdOr_reverse] using this
  · have hne : es ≠ [] := by
      intro h
      apply hsz
      simp [size, hs.count, h]
    have hfront : ∃ r1, s.cell (hdOr es s.tail) = some r1 ∧
        RemoveRelink s.cell (pop_front s).2.cell s.head (hdOr es s.tail) (r1.ptr ^^^ s.head) := by
      cases es with
      | nil => exact absurd rfl hne
      | cons e r =>
        refine ⟨_, hs.seg.1, ?_⟩
        simp only [hdOr, xor_cancel_mid]
        exact pop_front_relink hs
    have hback : ∃ r2, s.cell (lastOr es s.head) = some r2 ∧
        RemoveRelink s.cell (pop_back s).2.cell s.tail (lastOr es s.head)
          (r2.ptr ^^^ s.tail) := by
      have hrne : es.reverse ≠ [] := by simpa using hne
      have hsr := hs.rev
      rw [pop_back_eq, ← hdOr_reverse]
      cases hrev : es.reverse with
      | nil => exact absurd hrev hrne
      | cons e r =>
        rw [hrev] at hsr
        refine ⟨_, hsr.seg.1, ?_⟩
        have := pop_front_relink hsr
        simpa [hdOr, xor_cancel_mid] using this
    obtain ⟨r1, h1, h2⟩ := hfront
    obtain ⟨r2, h3, h4⟩ := hback
    exact ⟨r1, r2, h1, h3, h2, h4⟩

theorem relink_exact_witness :
    Reachable (push_front 48 7 (ctor 16 32 : State Nat)).2 ∧
    ∃ (hd tl : xll_node Nat),
      (push_front 48 7 (ctor 16 32 : State Nat)).2.cell
          (push_front 48 7 (ctor 16 32 : State Nat)).2.head = some hd ∧
      (push_front 48 7 (ctor 16 32 : State Nat)).2.cell
          (push_front 48 7 (ctor 16 32 : State Nat)).2.tail = some tl :=
  ⟨reachable_push_example,
    (relink_exact _ reachable_push_example).imp fun _ h => h.imp fun _ h2 => ⟨h2.1, h2.2.1⟩⟩


/-- Claim C18: copy construction allocates and writes nothing; the copy has the very same
sentinel addresses and the same size as the source. After a `push_front(x)` made through
the copy, the source (its own members over the store the copy left) traverses `x` followed
by its former elements, while its `size()` is the former one and so no longer the number of
elements traversed. -/
theorem copy_aliases_source (s : State T) (hr : Reachable s) (a : Nat) (x : T)
    (ha : s.cell a = none) (a0 : a ≠ 0) (aw : a < WORD) (xs : List T) (fuel : Nat)
    (hw : forward_walk s fuel = some (.ok xs)) :
    ((copy_ctor s).cell = s.cell ∧ (copy_ctor s).freed = s.freed ∧
        (copy_ctor s).head = s.head ∧ (copy_ctor s).tail = s.tail ∧
        size (copy_ctor s) = size s) ∧
      (push_front a x (copy_ctor s)).1 = .ok () ∧
      (∀ f, xs.length + 1 < f →
        forward_walk ((push_front a x (copy_ctor s)).2.seen_from s) f =
          some (.ok (x :: xs))) ∧
      size ((push_front a x (copy_ctor s)).2.seen_from s) = size s ∧
      size ((push_front a x (copy_ctor s)).2.seen_from s) ≠ (x :: xs).length := by
  obtain ⟨es, hs⟩ := hr.shape
  obtain ⟨rfl, -⟩ := hs.of_walk hw
  have hcopy : copy_ctor s = s := rfl
  rw [hcopy]
  obtain ⟨h1, h2, h3, h4, -⟩ := push_front_shape hs x (hs.fresh ha) a0 aw
  refine ⟨⟨rfl, rfl, rfl, rfl, rfl⟩, h1, fun f hf => ?_, rfl, ?_⟩
  · rw [@forward_walk_congr T (push_front a x s).2 ((push_front a x s).2.seen_from s) rfl
      h3.symm h4.symm, forward_walk_shape h2]
    simp at hf
    simp [hf]
  · simp [size, State.seen_from, hs.count]

theorem copy_aliases_source_witness :
    (Reachable (ctor 16 32 : State Nat) ∧ (ctor 16 32 : State Nat).cell 48 = none ∧
      (48 : Nat) ≠ 0 ∧ 48 < WORD ∧ forward_walk (ctor 16 32 : State Nat) 1 = some (.ok [])) ∧
    forward_walk ((push_front 48 7 (copy_ctor (ctor 16 32 : State Nat))).2.seen_from
      (ctor 16 32 : State Nat)) 2 = some (.ok [7]) ∧
    size ((push_front 48 7 (copy_ctor (ctor 16 32 : State Nat))).2.seen_from
      (ctor 16 32 : State Nat)) = 0 :=
  ⟨⟨reachable_ctor_example, by decide, by decide, by decide, by decide⟩,
    (copy_aliases_source _ reachable_ctor_example 48 7 (by decide) (by decide) (by decide)
      [] 1 (by decide)).2.2.1 2 (by decide),
    by decide⟩

/-- Counterexample to claim C19 as stated: on the cursor `end()` of a fresh list (current
`32`, arrived-from `16`, flag forward) `--it` does not leave the cursor as it was: it
exchanges the two positions and clears the flag. -/
theorem dec_is_not_a_nop :
    const_iterator.dec (ctor 16 32 : State Nat) { cur := 32, prev := 16, forward := true } =
        .ok { cur := 16, prev := 32, forward := false } ∧
      const_iterator.dec (ctor 16 32 : State Nat) { cur := 32, prev := 16, forward := true } ≠
        .ok { cur := 32, prev := 16, forward := true } := by
  constructor <;> decide

/-- Claim C19 as amended: pre-fix `operator--` is not a NOP. On a cursor whose flag is
forward it exchanges current and arrived-from and sets the flag to backward, whatever the
store holds; on a cursor whose flag is backward it is the advance step `iterate()`. In the
forward case the flag always changes, so the cursor is never left as it was. -/
theorem dec_spec (s : State T) (c p : Nat) :
    const_iterator.dec s { cur := c, prev := p, forward := true } =
        .ok { cur := p, prev := c, forward := false } ∧
      const_iterator.dec s { cur := c, prev := p, forward := false } =
        const_iterator.iterate s { cur := c, prev := p, forward := false } ∧
      const_iterator.dec s { cur := c, prev := p, forward := true } ≠
        .ok { cur := c, prev := p, forward := true } := by
  refine ⟨rfl, rfl, ?_⟩
  intro h
  have h2 : const_iterator.dec s { cur := c, prev := p, forward := true } =
      .ok { cur := p, prev := c, forward := false } := rfl
  rw [h2] at h
  simp at h

end XLinkedList
